import Mathlib

/-!
# openEMS MPI time-stepping coordinator (`FDTD/openems_fdtd_mpi.cpp`)

A shallow embedding of `openEMS_FDTD_MPI`: the constructor, the command-line
hook, the three collective helpers (`GetNextStep`, `CheckEnergyCalc`,
`CalcEnergy`) and the simulation loop of `RunFDTD`.

Conventions of the embedding

* The C++ code is the program of ONE rank.  Each member function is embedded
  as a `Prog`: a tree whose nodes are the blocking collectives the rank issues
  (`MPI_Reduce`, `MPI_Bcast`) and whose branches are indexed by the content of
  the receive buffer after the call.  `Prog.run` executes the programs of all
  ranks of `MPI_COMM_WORLD` in lockstep (root 0 and the other ranks) and is
  undefined (`none`) as soon as the ranks do not issue the same collective (a
  mismatched call sequence) or a rank runs into undefined behaviour.
  `Prog.solo` executes the program of a single rank against given deliveries.
* `int` values are `Int`, `unsigned int` values are `Nat`; the conversions the
  source performs are explicit.  The cast `(int)(NrTS - currTS)` of a double
  that does not fit an `int` is undefined behaviour in C++ and is the `ub` node.
* `double` values are exact rationals (`ℚ`): no rounding, no NaN.
* What the source reads from collaborators that are not part of this file
  (`PA->Process()`, `m_ProcField->CheckTimestep()`,
  `m_ProcField->CalcTotalEnergy()`, `gettimeofday`, `CheckAbortCond()`) is an
  input of the cycle (`CycleIn`), given per loop cycle and rank.
* Of the text written to `cout` only the fact that the leader reports, with the
  timestep, the energy and the decrement it prints, is kept.
-/

namespace OpenEMS

/-! ## Collective transport -/

/-- The reduction operators the source uses. -/
inductive MPI_Op where
  | MPI_MIN
  | MPI_SUM
  deriving DecidableEq, Repr

/-- One collective call as a rank issues it (operation and datatype). -/
inductive Call where
  | reduceInt (op : MPI_Op)
  | bcastInt
  | reduceDouble (op : MPI_Op)
  | bcastDouble
  deriving DecidableEq, Repr

/-- Binary operation of a reduction on `MPI_INT`. -/
def MPI_Op.applyInt : MPI_Op → Int → Int → Int
  | .MPI_MIN, a, b => min a b
  | .MPI_SUM, a, b => a + b

/-- Binary operation of a reduction on `MPI_DOUBLE`. -/
def MPI_Op.applyDouble : MPI_Op → ℚ → ℚ → ℚ
  | .MPI_MIN, a, b => min a b
  | .MPI_SUM, a, b => a + b

/-- The program of one rank: the collectives it issues, each with the buffers it
passes and the continuation that receives the content of the receive buffer
after the call.  `ub` is undefined behaviour. -/
inductive Prog (α : Type) : Type where
  | ret (a : α)
  | ub
  | reduceInt (op : MPI_Op) (sendbuf recvbuf : Int) (k : Int → Prog α)
  | bcastInt (buffer : Int) (k : Int → Prog α)
  | reduceDouble (op : MPI_Op) (sendbuf recvbuf : ℚ) (k : ℚ → Prog α)
  | bcastDouble (buffer : ℚ) (k : ℚ → Prog α)

namespace Prog

/-- Sequential composition of rank programs. -/
def bind {α β : Type} : Prog α → (α → Prog β) → Prog β
  | ret a, f => f a
  | ub, _ => ub
  | reduceInt op s r k, f => reduceInt op s r (fun v => bind (k v) f)
  | bcastInt b k, f => bcastInt b (fun v => bind (k v) f)
  | reduceDouble op s r k, f => reduceDouble op s r (fun v => bind (k v) f)
  | bcastDouble b k, f => bcastDouble b (fun v => bind (k v) f)

instance : Monad Prog where
  pure := Prog.ret
  bind := Prog.bind

/-- The collective a program is about to issue, if any. -/
def head? {α : Type} : Prog α → Option Call
  | ret _ => none
  | ub => none
  | reduceInt op _ _ _ => some (.reduceInt op)
  | bcastInt _ _ => some .bcastInt
  | reduceDouble op _ _ _ => some (.reduceDouble op)
  | bcastDouble _ _ => some .bcastDouble

/-- The result of a program that has finished. -/
def ret? {α : Type} : Prog α → Option α
  | ret a => some a
  | _ => none

/-- The send buffer of a pending `MPI_INT` reduction. -/
def sendInt {α : Type} : Prog α → Int
  | reduceInt _ s _ _ => s
  | _ => 0

/-- The send buffer of a pending `MPI_DOUBLE` reduction. -/
def sendDouble {α : Type} : Prog α → ℚ
  | reduceDouble _ s _ _ => s
  | _ => 0

/-- A rank other than the root after a reduction: `MPI_Reduce` writes the
receive buffer on the root only, so the rank goes on with its buffer as it was. -/
def afterReduce {α : Type} : Prog α → Prog α
  | reduceInt _ _ r k => k r
  | reduceDouble _ _ r k => k r
  | p => p

/-- A rank other than the root after `MPI_Bcast` of the root's `MPI_INT` value. -/
def afterBcastInt {α : Type} (v : Int) : Prog α → Prog α
  | bcastInt _ k => k v
  | p => p

/-- A rank other than the root after `MPI_Bcast` of the root's `MPI_DOUBLE` value. -/
def afterBcastDouble {α : Type} (v : ℚ) : Prog α → Prog α
  | bcastDouble _ k => k v
  | p => p

/-- Lockstep execution of `MPI_COMM_WORLD`: the root's program and the programs
of the other ranks.  Every rank must issue the same collective as the root;
the reduction folds the send buffers of all ranks into the root's receive
buffer, the broadcast copies the root's buffer to every rank.  The result is
the root's result with the list of the other ranks' results, or `none` when a
rank runs into undefined behaviour or the ranks' call sequences do not match. -/
def run {α : Type} : Prog α → List (Prog α) → Option (α × List α)
  | ret a, others =>
    if others.all (fun p => p.ret?.isSome) then some (a, others.filterMap ret?) else none
  | ub, _ => none
  | reduceInt op s _ k, others =>
    if others.all (fun p => p.head? = some (.reduceInt op)) then
      run (k ((others.map sendInt).foldl op.applyInt s)) (others.map afterReduce)
    else none
  | bcastInt b k, others =>
    if others.all (fun p => p.head? = some .bcastInt) then
      run (k b) (others.map (afterBcastInt b))
    else none
  | reduceDouble op s _ k, others =>
    if others.all (fun p => p.head? = some (.reduceDouble op)) then
      run (k ((others.map sendDouble).foldl op.applyDouble s)) (others.map afterReduce)
    else none
  | bcastDouble b k, others =>
    if others.all (fun p => p.head? = some .bcastDouble) then
      run (k b) (others.map (afterBcastDouble b))
    else none

/-- The collectives the world completes in lockstep, in order: the sequence
stops where the programs finish, stop matching or run into undefined
behaviour. -/
def calls {α : Type} : Prog α → List (Prog α) → List Call
  | ret _, _ => []
  | ub, _ => []
  | reduceInt op s _ k, others =>
    if others.all (fun p => p.head? = some (.reduceInt op)) then
      .reduceInt op :: calls (k ((others.map sendInt).foldl op.applyInt s)) (others.map afterReduce)
    else []
  | bcastInt b k, others =>
    if others.all (fun p => p.head? = some .bcastInt) then
      .bcastInt :: calls (k b) (others.map (afterBcastInt b))
    else []
  | reduceDouble op s _ k, others =>
    if others.all (fun p => p.head? = some (.reduceDouble op)) then
      .reduceDouble op ::
        calls (k ((others.map sendDouble).foldl op.applyDouble s)) (others.map afterReduce)
    else []
  | bcastDouble b k, others =>
    if others.all (fun p => p.head? = some .bcastDouble) then
      .bcastDouble :: calls (k b) (others.map (afterBcastDouble b))
    else []

/-- The program of ONE rank run on its own: the collectives it issues, in
order, and its result.  `isRoot` tells whether the rank is rank 0;
`ints n` and `doubles n` are what the transport delivers into the receive
buffer of the rank's `n`-th collective (the reduced value on the root, the
root's value in a broadcast on another rank).  A reduction leaves the buffer of
a rank other than the root as it was, a broadcast leaves the root's. -/
def solo {α : Type} (isRoot : Bool) (ints : Nat → Int) (doubles : Nat → ℚ) :
    Nat → Prog α → List Call × Option α
  | _, ret a => ([], some a)
  | _, ub => ([], none)
  | n, reduceInt op _ r k =>
    let rest := solo isRoot ints doubles (n + 1) (k (if isRoot then ints n else r))
    (.reduceInt op :: rest.1, rest.2)
  | n, bcastInt b k =>
    let rest := solo isRoot ints doubles (n + 1) (k (if isRoot then b else ints n))
    (.bcastInt :: rest.1, rest.2)
  | n, reduceDouble op _ r k =>
    let rest := solo isRoot ints doubles (n + 1) (k (if isRoot then doubles n else r))
    (.reduceDouble op :: rest.1, rest.2)
  | n, bcastDouble b k =>
    let rest := solo isRoot ints doubles (n + 1) (k (if isRoot then b else doubles n))
    (.bcastDouble :: rest.1, rest.2)

end Prog

/-- The call `MPI_Reduce(&sendbuf, &recvbuf, 1, MPI_INT, op, 0, MPI_COMM_WORLD)`;
the result is the content of `recvbuf` after the call. -/
def MPI_Reduce_int (sendbuf recvbuf : Int) (op : MPI_Op) : Prog Int :=
  .reduceInt op sendbuf recvbuf .ret

/-- The call `MPI_Bcast(&buffer, 1, MPI_INT, 0, MPI_COMM_WORLD)`. -/
def MPI_Bcast_int (buffer : Int) : Prog Int :=
  .bcastInt buffer .ret

/-- The call `MPI_Reduce(&sendbuf, &recvbuf, 1, MPI_DOUBLE, op, 0, MPI_COMM_WORLD)`. -/
def MPI_Reduce_double (sendbuf recvbuf : ℚ) (op : MPI_Op) : Prog ℚ :=
  .reduceDouble op sendbuf recvbuf .ret

/-- The call `MPI_Bcast(&buffer, 1, MPI_DOUBLE, 0, MPI_COMM_WORLD)`. -/
def MPI_Bcast_double (buffer : ℚ) : Prog ℚ :=
  .bcastDouble buffer .ret

/-! ## Data model -/

/-- The engine selection `m_engine` of the base class.  The source names the
enumerator `EngineType_MPI` only; the other enumerators of the base class are
told apart by a number. -/
inductive EngineType where
  | EngineType_MPI
  | other (tag : Nat)
  deriving DecidableEq, Repr

/-- The members of the base class `openEMS` the coordinator reads or writes,
with the engine's timestep counter (`FDTD_Eng->GetNumberOfTimesteps()`).  The
header that declares them is not part of the source at hand; the two counts
are natural numbers here. -/
structure openEMS where
  /-- The selected engine. -/
  m_engine : EngineType
  /-- The end criterion: the energy ratio below which the run stops. -/
  endCrit : ℚ
  /-- The total number of timesteps, the budget of the run. -/
  NrTS : Nat
  /-- The engine's count of timesteps done so far. -/
  numTS : Nat
  deriving DecidableEq, Repr

/-- The object `openEMS_FDTD_MPI` of one rank. -/
structure openEMS_FDTD_MPI extends openEMS where
  /-- The rank of the process in `MPI_COMM_WORLD`. -/
  m_MyID : Nat
  /-- The number of processes in `MPI_COMM_WORLD`. -/
  m_NumProc : Nat
  /-- The largest global energy sampled so far. -/
  m_MaxEnergy : ℚ
  /-- The last global energy over the largest one. -/
  m_EnergyDecrement : ℚ
  /-- The length of the `int` array allocated on rank 0, `none` for `NULL`. -/
  m_Gather_Buffer : Option Nat
  /-- The length of the `double` array allocated on rank 0, `none` for `NULL`. -/
  m_Energy_Buffer : Option Nat
  deriving DecidableEq, Repr

/-- The constructor `openEMS_FDTD_MPI::openEMS_FDTD_MPI()`: `base` is what the
constructor of the base class leaves, `rank` and `size` are what
`MPI::COMM_WORLD.Get_rank()` and `Get_size()` return. -/
def openEMS_FDTD_MPI.new (base : openEMS) (rank size : Nat) : openEMS_FDTD_MPI :=
  { toopenEMS := base
    m_MyID := rank
    m_NumProc := size
    m_MaxEnergy := 0
    m_EnergyDecrement := 1
    m_Gather_Buffer := if rank = 0 then some size else none
    m_Energy_Buffer := if rank = 0 then some size else none }

/-! ## Machine integers -/

/-- The largest `int`. -/
def INT_MAX : Int := 2147483647

/-- The smallest `int`. -/
def INT_MIN : Int := -2147483648

/-- The conversion of a `double` that holds a whole number to `int`; it is
defined only when the value fits (undefined behaviour otherwise). -/
def doubleToInt (x : Int) : Option Int :=
  if INT_MIN ≤ x ∧ x ≤ INT_MAX then some x else none

/-- The conversion of an `int` to `unsigned int`. -/
def intToUnsigned (x : Int) : Nat := (x % 4294967296).toNat

/-- The conversion of an `unsigned int` to `int` (two's complement). -/
def unsignedToInt (n : Nat) : Int :=
  if (n : Int) ≤ INT_MAX then n else (n : Int) - 4294967296

/-! ## Command line -/

/-- The function `openEMS_FDTD_MPI::parseCommandLineArgument`.  `argv` is `none`
for a null pointer.  `base` is `openEMS::parseCommandLineArgument` of the base
class: its result and what it leaves of the base members.  The result is the
returned flag, the object and the lines written to `cout`. -/
def parseCommandLineArgument (base : String → openEMS → Bool × openEMS)
    (self : openEMS_FDTD_MPI) (argv : Option String) :
    Bool × openEMS_FDTD_MPI × List String :=
  match argv with
  | none => (false, self, [])
  | some arg =>
    let ret := (base arg self.toopenEMS).1
    let self := { self with toopenEMS := (base arg self.toopenEMS).2 }
    if ret then (ret, self, [])
    else if arg = "--engine=MPI" then
      (true, { self with m_engine := .EngineType_MPI },
        ["openEMS_FDTD_MPI - enabled MPI parallel processing"])
    else (false, self, [])

/-! ## The collective helpers -/

/-- The function `openEMS_FDTD_MPI::GetNextStep`; `Process` is the value of
`PA->Process()` on this rank.  `NrTS - currTS` is a difference of two whole
numbers taken in `double`, hence exact; both `(int)(NrTS - currTS)` and the
assignment `step=NrTS - currTS` convert it to `int`, so that one of the two
conversions is evaluated whatever `step` is. -/
def GetNextStep (self : openEMS_FDTD_MPI) (Process : Int) : Prog Nat :=
  let step : Int := Process
  let currTS : Int := self.numTS
  match doubleToInt (self.NrTS - currTS) with
  | none => .ub
  | some budget =>
    let step := if step < 0 ∨ step > budget then budget else step
    let local_step := step
    do
      let step ← MPI_Reduce_int local_step step .MPI_MIN
      let step ← MPI_Bcast_int step
      return intToUnsigned step

/-- The function `openEMS_FDTD_MPI::CheckEnergyCalc`; `CheckTimestep` is the
value of `m_ProcField->CheckTimestep()` on this rank and `result` the
indeterminate content of the local `int result` before the reduction.  The
sum of the flags of all ranks cannot overflow: the number of ranks is an `int`. -/
def CheckEnergyCalc (CheckTimestep : Bool) (result : Int) : Prog Bool :=
  let local_Check : Int := if CheckTimestep then 1 else 0
  do
    let result ← MPI_Reduce_int local_Check result .MPI_SUM
    let result ← MPI_Bcast_int result
    return decide (result > 0)

/-- The end of `openEMS_FDTD_MPI::CalcEnergy`, after the broadcast: the two
`if` statements that store the global `energy` in the members. -/
def CalcEnergy_store (self : openEMS_FDTD_MPI) (energy : ℚ) : openEMS_FDTD_MPI :=
  let self := if energy > self.m_MaxEnergy then { self with m_MaxEnergy := energy } else self
  if self.m_MaxEnergy ≠ 0 then
    { self with m_EnergyDecrement := energy / self.m_MaxEnergy }
  else self

/-- The function `openEMS_FDTD_MPI::CalcEnergy`; `CalcTotalEnergy` is the value
of `m_ProcField->CalcTotalEnergy()` on this rank.  The result is the object
with its new members and the returned energy. -/
def CalcEnergy (self : openEMS_FDTD_MPI) (CalcTotalEnergy : ℚ) :
    Prog (openEMS_FDTD_MPI × ℚ) :=
  let energy : ℚ := 0
  let loc_energy : ℚ := CalcTotalEnergy
  do
    let energy ← MPI_Reduce_double loc_energy energy .MPI_SUM
    let energy ← MPI_Bcast_double energy
    return (CalcEnergy_store self energy, energy)

/-! ## The simulation loop of `RunFDTD` -/

/-- What the collaborators of one rank answer in one cycle of the loop. -/
structure CycleIn where
  /-- The value of `CheckAbortCond()` in the loop condition before the cycle. -/
  abort : Bool
  /-- The value of `PA->Process()` in the cycle's `GetNextStep`. -/
  Process : Int
  /-- The value of `CalcDiffTime(currTime,prevTime)`: seconds since the last report. -/
  t_diff : ℚ
  /-- The value of `m_ProcField->CheckTimestep()`. -/
  CheckTimestep : Bool
  /-- The indeterminate content of `result` in `CheckEnergyCalc`. -/
  result : Int
  /-- The value of `m_ProcField->CalcTotalEnergy()`. -/
  CalcTotalEnergy : ℚ
  deriving DecidableEq, Repr

/-- A line of the leader's progress report: the timestep, the energy and the
decrement it prints. -/
structure Report where
  /-- The printed timestep `currTS`. -/
  currTS : Int
  /-- The printed energy `currE`. -/
  currE : ℚ
  /-- The decrement `m_EnergyDecrement` whose decibel value is printed. -/
  decrement : ℚ
  deriving DecidableEq, Repr

/-- The object of one rank with the locals of `RunFDTD` and the rank's report
lines. -/
structure RunState where
  /-- The object. -/
  self : openEMS_FDTD_MPI
  /-- The local `int step`. -/
  step : Int
  /-- The local `double currE`. -/
  currE : ℚ
  /-- The local `int currTS`. -/
  currTS : Int
  /-- The local `int prevTS`. -/
  prevTS : Int
  /-- The report lines written so far. -/
  cout : List Report
  deriving DecidableEq, Repr

/-- Modelled from the spec: `FDTD_Eng->IterateTS(step)` of the engine, which is
not part of the source at hand; the engine advances its timestep count by
the number of steps it is given (`AdvanceBy(steps)`). -/
def IterateTS (self : openEMS_FDTD_MPI) (iterTS : Nat) : openEMS_FDTD_MPI :=
  { self with numTS := self.numTS + iterTS }

/-- The start of the simulation in `RunFDTD`: the locals are initialised and
`int step = GetNextStep()` is taken before the loop. -/
def RunFDTD_start (self : openEMS_FDTD_MPI) (Process : Int) : Prog RunState := do
  let step ← GetNextStep self Process
  return { self := self, step := unsignedToInt step, currE := 0, currTS := 0, prevTS := 0,
           cout := [] }

/-- The loop condition `(step>0) && !CheckAbortCond()`. -/
def loopCond (s : RunState) (i : CycleIn) : Bool :=
  decide (s.step > 0) && !i.abort

/-- The statement `currE = CalcEnergy();` of the loop body. -/
def sampleEnergy (s : RunState) (i : CycleIn) : Prog RunState := do
  let r ← CalcEnergy s.self i.CalcTotalEnergy
  return { s with self := r.1, currE := r.2 }

/-- The block `if (m_MyID==0) { ... }` of the reporting branch: the leader
writes its report line and sets `step` to zero when the decrement is below the
end criterion. -/
def reportLeader (s : RunState) : RunState :=
  if s.self.m_MyID = 0 then
    let s := { s with cout := s.cout ++ [{ currTS := s.currTS, currE := s.currE,
                                           decrement := s.self.m_EnergyDecrement }] }
    if s.self.m_EnergyDecrement < s.self.endCrit then { s with step := 0 } else s
  else s

/-- The branch `if (t_diff>4) { ... }` of the loop body: the reporting branch. -/
def reportBranch (s : RunState) (i : CycleIn) : Prog RunState := do
  let s ← if s.currE = 0 then sampleEnergy s i else pure s
  let s := reportLeader s
  let step ← MPI_Bcast_int s.step
  return { s with step := step, prevTS := s.currTS }

/-- The body of the loop `while ((step>0) && !CheckAbortCond())`. -/
def loopBody (s : RunState) (i : CycleIn) : Prog RunState := do
  let s := { s with self := IterateTS s.self (intToUnsigned s.step) }
  let step ← GetNextStep s.self i.Process
  let s := { s with step := unsignedToInt step, currTS := unsignedToInt s.self.numTS,
                    currE := 0 }
  let check ← CheckEnergyCalc i.CheckTimestep i.result
  let s ← if check then sampleEnergy s i else pure s
  if i.t_diff > 4 then reportBranch s i else pure s

/-- The state of `MPI_COMM_WORLD`: rank 0 and the other ranks. -/
structure World where
  /-- Rank 0, the leader and the root of every collective. -/
  root : RunState
  /-- The other ranks. -/
  others : List RunState
  deriving DecidableEq, Repr

/-- All ranks of a world, rank 0 first. -/
def World.ranks (w : World) : List RunState := w.root :: w.others

/-- One cycle of the loop on every rank of the world: all ranks pass the loop
condition and run the body in lockstep.  `env id` is what the collaborators of
the rank with number `id` answer in this cycle.  The cycle is `none` when a rank
leaves the loop, when the ranks' collectives do not match or when a rank runs
into undefined behaviour. -/
def worldCycle (env : Nat → CycleIn) (w : World) : Option World :=
  if w.ranks.all (fun s => loopCond s (env s.self.m_MyID)) then
    (Prog.run (loopBody w.root (env w.root.self.m_MyID))
      (w.others.map fun s => loopBody s (env s.self.m_MyID))).map
      fun r => { root := r.1, others := r.2 }
  else none

/-- The worlds after each completed cycle of the loop, at most `n` of them
observed: `env k id` is the input of rank `id` in cycle `k` (counted from `k`). -/
def simulate (env : Nat → Nat → CycleIn) : Nat → Nat → World → List World
  | 0, _, _ => []
  | n + 1, k, w =>
    match worldCycle (env k) w with
    | none => []
    | some w' => w' :: simulate env n (k + 1) w'

/-- The simulation part of `RunFDTD` on every rank: `objs` are the objects of
rank 0 and of the other ranks, `first id` is the answer of `PA->Process()` to
the `GetNextStep` before the loop.  The result is the world before the first
cycle, if the first negotiation is defined. -/
def worldStart (first : Nat → Int) (root : openEMS_FDTD_MPI)
    (others : List openEMS_FDTD_MPI) : Option World :=
  (Prog.run (RunFDTD_start root (first root.m_MyID))
    (others.map fun o => RunFDTD_start o (first o.m_MyID))).map
    fun r => { root := r.1, others := r.2 }

/-- The simulation section of `RunFDTD` (from `int step = GetNextStep();` to
the end of the `while` loop) on every rank, observed for `n` cycles: the
worlds after each completed cycle.  The function reaches this section when
`m_engine` is `EngineType_MPI`; what precedes and follows it (the sum of the
cell counts, the registration of the field processing, the final statistics)
feeds the text of the report only and is left out. -/
def RunFDTD (first : Nat → Int) (env : Nat → Nat → CycleIn) (n : Nat)
    (root : openEMS_FDTD_MPI) (others : List openEMS_FDTD_MPI) : List World :=
  match worldStart first root others with
  | none => []
  | some w => simulate env n 0 w

/-- A sequence of `n` energy samples on every rank: `CalcEnergy` is called `n`
times in a row, `e k id` is the local energy of rank `id` in sample `k`
(counted from `k`).  The result is the objects after the last sample with the
energies the calls returned on rank 0, the last one first. -/
def samples (e : Nat → Nat → ℚ) :
    Nat → Nat → openEMS_FDTD_MPI × List openEMS_FDTD_MPI × List ℚ →
      Option (openEMS_FDTD_MPI × List openEMS_FDTD_MPI × List ℚ)
  | 0, _, w => some w
  | n + 1, k, w =>
    match Prog.run (CalcEnergy w.1 (e k w.1.m_MyID))
        (w.2.1.map fun o => CalcEnergy o (e k o.m_MyID)) with
    | none => none
    | some r => samples e n (k + 1) (r.1.1, r.2.map Prod.fst, r.1.2 :: w.2.2)

/-! ## Concrete worlds -/

/-- The base members of a run with a budget of 100 timesteps and an end
criterion of 30 dB (the ratio 1/1000). -/
def base100 : openEMS :=
  { m_engine := .EngineType_MPI, endCrit := 1 / 1000, NrTS := 100, numTS := 0 }

/-- Rank 0 of two ranks, as constructed. -/
def rank0 : openEMS_FDTD_MPI := openEMS_FDTD_MPI.new base100 0 2

/-- Rank 1 of two ranks, as constructed. -/
def rank1 : openEMS_FDTD_MPI := openEMS_FDTD_MPI.new base100 1 2

/-- A base interpreter for illustration: it recognises `--engine=basic`, for
which it selects the engine with number 0, and nothing else. -/
def sampleBase (arg : String) (b : openEMS) : Bool × openEMS :=
  if arg = "--engine=basic" then (true, { b with m_engine := .other 0 }) else (false, b)

/-! ## Closed form of one cycle

The outcome of one cycle of the loop on one rank, written as a function of the
values the collectives deliver.  Theorem `worldCycle_eq` proves that the
lockstep execution of `loopBody` yields exactly this outcome. -/

/-- The budget `NrTS - currTS` a rank computes in the `GetNextStep` of the
cycle, after `IterateTS(step)`. -/
def budgetAfter (s : RunState) : Int :=
  (s.self.NrTS : Int) - ((s.self.numTS + intToUnsigned s.step : Nat) : Int)

/-- The local proposal of a rank after the clipping in `GetNextStep`. -/
def localStep (s : RunState) (i : CycleIn) : Int :=
  if i.Process < 0 ∨ i.Process > budgetAfter s then budgetAfter s else i.Process

/-- The state of a rank with the global energy `E` stored by `CalcEnergy`. -/
def withSample (s : RunState) (E : ℚ) : RunState :=
  { s with self := CalcEnergy_store s.self E, currE := E }

/-- The state of a rank at the test `if (t_diff>4)`: the engine has iterated,
`v` is the negotiated step, `b` the result of `CheckEnergyCalc` and `E` the
global energy of the cycle. -/
def sampled (v : Int) (b : Bool) (E : ℚ) (s : RunState) : RunState :=
  let self := IterateTS s.self (intToUnsigned s.step)
  let s1 : RunState :=
    { s with self := self, step := unsignedToInt (intToUnsigned v),
             currTS := unsignedToInt self.numTS, currE := 0 }
  if b then withSample s1 E else s1

/-- The state of a rank in the reporting branch after
`if (currE==0) currE = CalcEnergy();` and the leader's block. -/
def reportEntry (E : ℚ) (s : RunState) : RunState :=
  reportLeader (if s.currE = 0 then withSample s E else s)

/-- The state of a rank at the end of the cycle; `rootStep` is the value of
`step` rank 0 broadcasts in the reporting branch. -/
def cycleOutcome (i : CycleIn) (v : Int) (b : Bool) (E : ℚ) (rootStep : Int)
    (s : RunState) : RunState :=
  if i.t_diff > 4 then
    { reportEntry E (sampled v b E s) with
      step := rootStep, prevTS := (reportEntry E (sampled v b E s)).currTS }
  else sampled v b E s

/-- The step all ranks of a world negotiate in the cycle. -/
def negotiated (env : Nat → CycleIn) (w : World) : Int :=
  (w.others.map fun s => localStep s (env s.self.m_MyID)).foldl min
    (localStep w.root (env w.root.self.m_MyID))

/-- The result of `CheckEnergyCalc` in the cycle: some rank requests a sample. -/
def requested (env : Nat → CycleIn) (w : World) : Bool :=
  w.ranks.any fun s => (env s.self.m_MyID).CheckTimestep

/-- The global energy of the cycle: the sum of the local energies. -/
def globalEnergy (env : Nat → CycleIn) (w : World) : ℚ :=
  (w.ranks.map fun s => (env s.self.m_MyID).CalcTotalEnergy).sum

/-- The world after one cycle in closed form. -/
def cycleWorld (env : Nat → CycleIn) (w : World) : World :=
  let v := negotiated env w
  let b := requested env w
  let E := globalEnergy env w
  let rootStep := (reportEntry E (sampled v b E w.root)).step
  { root := cycleOutcome (env w.root.self.m_MyID) v b E rootStep w.root
    others := w.others.map fun s => cycleOutcome (env s.self.m_MyID) v b E rootStep s }

/-- The condition under which the world completes a cycle: every rank passes
the loop condition, the budget of every rank fits an `int`, and every rank
takes the reporting branch exactly when rank 0 does. -/
def cycleDefined (env : Nat → CycleIn) (w : World) : Prop :=
  (∀ s ∈ w.ranks, loopCond s (env s.self.m_MyID) = true) ∧
  (∀ s ∈ w.ranks, INT_MIN ≤ budgetAfter s ∧ budgetAfter s ≤ INT_MAX) ∧
  (∀ s ∈ w.others, ((env s.self.m_MyID).t_diff > 4 ↔ (env w.root.self.m_MyID).t_diff > 4))

/-! ## Invariants used in the proofs -/

/-- The invariant of the loop on one rank: the budget is `N`, the timestep
count does not exceed it, and neither does the count advanced by `step`. -/
def budgetKept (N : Nat) (s : RunState) : Prop :=
  s.self.NrTS = N ∧ s.self.numTS ≤ N ∧ s.step ≤ INT_MAX ∧
    (s.self.numTS : Int) + s.step ≤ N

/-! ## Concrete runs -/

/-- Every cycle of a two-rank run: rank 0 proposes 10 steps, rank 1 proposes 7,
nobody asks for an energy sample and the report interval never elapses. -/
def quietEnv : Nat → Nat → CycleIn := fun _ id =>
  { abort := false, Process := if id = 0 then 10 else 7, t_diff := 1,
    CheckTimestep := false, result := 0, CalcTotalEnergy := 1 }

/-- Rank `o` at the head of the loop, with the negotiated step 7 and nothing
reported so far. -/
def atLoopHead (o : openEMS_FDTD_MPI) : RunState :=
  { self := o, step := 7, currE := 0, currTS := 0, prevTS := 0, cout := [] }

/-- Two ranks at the head of the loop with the negotiated step 7. -/
def world7 : World := { root := atLoopHead rank0, others := [atLoopHead rank1] }

/-- A cycle in which no rank asks for an energy sample, the report interval has
elapsed on both ranks (5 seconds) and the local energies are 2 and 3. -/
def reportEnv : Nat → CycleIn := fun id =>
  { abort := false, Process := if id = 0 then 10 else 7, t_diff := 5,
    CheckTimestep := false, result := 0, CalcTotalEnergy := if id = 0 then 2 else 3 }

/-- Rank `o` at the test `if (t_diff>4)` of a cycle without a sample: the
negotiated step is 7, the stored maximum 4 and the decrement 1. -/
def atReport (o : openEMS_FDTD_MPI) : RunState :=
  { self := { o with m_MaxEnergy := 4 }, step := 7, currE := 0, currTS := 7, prevTS := 0,
    cout := [] }

/-- A cycle in which the local energies are 1/2000 on each rank and the report
interval has elapsed. -/
def faintEnv : Nat → CycleIn := fun _ =>
  { abort := false, Process := 7, t_diff := 5, CheckTimestep := false, result := 0,
    CalcTotalEnergy := 1 / 2000 }

/-- Scenario 3: in cycle `k` each of two ranks holds the local energy
`(1/2) * (1/10)^k`, so that the global energy decays 1, 1/10, 1/100, ...;
both ranks ask for a sample in every cycle and the report interval has
elapsed in every cycle. -/
def decayEnv : Nat → Nat → CycleIn := fun k _ =>
  { abort := false, Process := 1, t_diff := 5, CheckTimestep := true, result := 0,
    CalcTotalEnergy := (1 / 2) * (1 / 10) ^ k }

/-- The cycles of `decayEnv` with a report interval that never elapses. -/
def unreportedEnv : Nat → Nat → CycleIn := fun k id =>
  { decayEnv k id with t_diff := 1 }

/-- The cycle of `faintEnv` with local clocks that differ: 5 seconds since the
last report on rank 0, 3 seconds on rank 1. -/
def skewEnv : Nat → CycleIn := fun id =>
  { faintEnv id with t_diff := if id = 0 then 5 else 3 }

/-- What the transport delivers in the cycle of `skewEnv`: the negotiated step
7 in the two collectives of `GetNextStep`, the flag sum 0 afterwards. -/
def skewInts : Nat → Int := fun n => if n < 2 then 7 else 0

/-- What the transport delivers to a reduction of energies in the cycle of
`skewEnv`: the sum 1/1000 of the local energies. -/
def skewDoubles : Nat → ℚ := fun _ => 1 / 1000

/-! ## Lockstep execution of uniform worlds -/

namespace Prog
variable {α β γ : Type}

theorem bind_eq (p : Prog α) (f : α → Prog β) : (p >>= f) = Prog.bind p f := rfl

theorem pure_eq (a : α) : (pure a : Prog α) = ret a := rfl

theorem filterMap_some_eq_map (f : γ → α) (cs : List γ) :
    List.filterMap (fun c => some (f c)) cs = List.map f cs := by
  induction cs with
  | nil => rfl
  | cons c cs ih => simp [List.filterMap_cons, ih]

theorem run_ret_map (a : α) (cs : List γ) (f : γ → α) :
    run (ret a) (cs.map fun c => ret (f c)) = some (a, cs.map f) := by
  simp [run, List.all_map, ret?, List.filterMap_map, Function.comp_def, filterMap_some_eq_map]

theorem run_reduceInt_map (op : MPI_Op) (s r : Int) (k : Int → Prog α) (cs : List γ)
    (S R : γ → Int) (K : γ → Int → Prog α) :
    run (reduceInt op s r k) (cs.map fun c => reduceInt op (S c) (R c) (K c))
      = run (k ((cs.map S).foldl op.applyInt s)) (cs.map fun c => K c (R c)) := by
  simp [run, List.all_map, head?, sendInt, afterReduce, Function.comp_def]

theorem run_bcastInt_map (b : Int) (k : Int → Prog α) (cs : List γ)
    (B : γ → Int) (K : γ → Int → Prog α) :
    run (bcastInt b k) (cs.map fun c => bcastInt (B c) (K c))
      = run (k b) (cs.map fun c => K c b) := by
  simp [run, List.all_map, head?, afterBcastInt, Function.comp_def]

theorem run_reduceDouble_map (op : MPI_Op) (s r : ℚ) (k : ℚ → Prog α) (cs : List γ)
    (S R : γ → ℚ) (K : γ → ℚ → Prog α) :
    run (reduceDouble op s r k) (cs.map fun c => reduceDouble op (S c) (R c) (K c))
      = run (k ((cs.map S).foldl op.applyDouble s)) (cs.map fun c => K c (R c)) := by
  simp [run, List.all_map, head?, sendDouble, afterReduce, Function.comp_def]

theorem run_bcastDouble_map (b : ℚ) (k : ℚ → Prog α) (cs : List γ)
    (B : γ → ℚ) (K : γ → ℚ → Prog α) :
    run (bcastDouble b k) (cs.map fun c => bcastDouble (B c) (K c))
      = run (k b) (cs.map fun c => K c b) := by
  simp [run, List.all_map, head?, afterBcastDouble, Function.comp_def]

theorem run_congr (p : Prog α) (cs : List γ) (P Q : γ → Prog α)
    (h : ∀ c ∈ cs, P c = Q c) : run p (cs.map P) = run p (cs.map Q) := by
  rw [List.map_congr_left h]

end Prog

/-! ## Machine integers -/

theorem doubleToInt_of_fits {x : Int} (h1 : INT_MIN ≤ x) (h2 : x ≤ INT_MAX) :
    doubleToInt x = some x := by
  simp [doubleToInt, h1, h2]

theorem intToUnsigned_of_fits {x : Int} (h1 : 0 ≤ x) (h2 : x ≤ INT_MAX) :
    intToUnsigned x = x.toNat := by
  unfold intToUnsigned
  unfold INT_MAX at h2
  rw [Int.emod_eq_of_lt h1 (by omega)]

theorem unsignedToInt_intToUnsigned {x : Int} (h1 : 0 ≤ x) (h2 : x ≤ INT_MAX) :
    unsignedToInt (intToUnsigned x) = x := by
  rw [intToUnsigned_of_fits h1 h2]
  unfold unsignedToInt
  have : ((x.toNat : Nat) : Int) = x := Int.toNat_of_nonneg h1
  simp [this, h2]

/-! ## `GetNextStep` -/

/-- The program of `GetNextStep` on a rank whose budget fits an `int`. -/
theorem GetNextStep_eq (self : openEMS_FDTD_MPI) (p B : Int)
    (hB : (self.NrTS : Int) - self.numTS = B) (h1 : INT_MIN ≤ B) (h2 : B ≤ INT_MAX) :
    GetNextStep self p =
      .reduceInt .MPI_MIN (if p < 0 ∨ p > B then B else p) (if p < 0 ∨ p > B then B else p)
        (fun v => .bcastInt v (fun v => .ret (intToUnsigned v))) := by
  simp [GetNextStep, hB, doubleToInt_of_fits h1 h2, Prog.bind_eq, Prog.pure_eq, Prog.bind,
    MPI_Reduce_int, MPI_Bcast_int]

theorem foldl_min_le (ps : List Int) (p0 : Int) :
    ps.foldl min p0 ≤ p0 ∧ ∀ p ∈ ps, ps.foldl min p0 ≤ p := by
  induction ps generalizing p0 with
  | nil => simp
  | cons p ps ih =>
    simp only [List.foldl_cons, List.mem_cons, forall_eq_or_imp]
    have h := ih (min p0 p)
    refine ⟨le_trans h.1 (min_le_left _ _), le_trans h.1 (min_le_right _ _), h.2⟩

theorem foldl_min_mem (ps : List Int) (p0 : Int) :
    ps.foldl min p0 = p0 ∨ ps.foldl min p0 ∈ ps := by
  induction ps generalizing p0 with
  | nil => simp
  | cons p ps ih =>
    simp only [List.foldl_cons, List.mem_cons]
    rcases ih (min p0 p) with h | h
    · rcases min_choice p0 p with h' | h'
      · left; rw [h, h']
      · right; left; rw [h, h']
    · right; right; exact h

theorem foldl_min_nonneg (ps : List Int) (p0 : Int) (h0 : 0 ≤ p0) (h : ∀ p ∈ ps, 0 ≤ p) :
    0 ≤ ps.foldl min p0 := by
  rcases foldl_min_mem ps p0 with h' | h'
  · rw [h']; exact h0
  · exact h _ h'

theorem CheckEnergyCalc_eq (f : Bool) (j : Int) :
    CheckEnergyCalc f j =
      .reduceInt .MPI_SUM (if f then 1 else 0) j
        (fun v => .bcastInt v (fun v => .ret (decide (v > 0)))) := by
  simp [CheckEnergyCalc, Prog.bind_eq, Prog.pure_eq, Prog.bind, MPI_Reduce_int, MPI_Bcast_int]

theorem foldl_add_flags (fs : List Bool) (s : Int) :
    (fs.map fun f => if f then (1 : Int) else 0).foldl (· + ·) s = s + fs.count true := by
  induction fs generalizing s with
  | nil => simp
  | cons f fs ih =>
    simp only [List.map_cons, List.foldl_cons]
    rw [ih]
    cases f
    · simp [List.count_cons]
    · simp [List.count_cons]
      ring

theorem flags_sum_pos (f0 : Bool) (fs : List Bool) :
    ((if f0 then (1 : Int) else 0) + fs.count true > 0) ↔ (f0 = true ∨ true ∈ fs) := by
  have h : (0 < fs.count true) ↔ true ∈ fs := List.count_pos_iff
  cases f0
  · simp
  · simp
    omega

/-- C7. Sample-request aggregation: on `n >= 1` ranks (rank 0 and the others)
`CheckEnergyCalc` returns the same value on every rank, and that value is
true exactly when the flag of at least one rank is set, whatever the
indeterminate content of the local `result` is. -/
theorem CheckEnergyCalc_true_iff_some_rank_requests (root : Bool × Int)
    (others : List (Bool × Int)) :
    ∃ b : Bool,
      Prog.run (CheckEnergyCalc root.1 root.2) (others.map fun r => CheckEnergyCalc r.1 r.2)
        = some (b, List.replicate others.length b) ∧
      (b = true ↔ ∃ r ∈ root :: others, r.1 = true) := by
  refine ⟨decide ((if root.1 then (1 : Int) else 0) + (others.map Prod.fst).count true > 0),
    ?_, ?_⟩
  · rw [CheckEnergyCalc_eq,
      Prog.run_congr _ others _
        (fun r => Prog.reduceInt .MPI_SUM (if r.1 then 1 else 0) r.2
          (fun v => .bcastInt v (fun v => .ret (decide (v > 0)))))
        (fun r _ => CheckEnergyCalc_eq r.1 r.2),
      Prog.run_reduceInt_map, Prog.run_bcastInt_map, Prog.run_ret_map]
    have hfold : List.foldl MPI_Op.MPI_SUM.applyInt (if root.1 then 1 else 0)
        (List.map (fun c : Bool × Int => if c.1 then (1 : Int) else 0) others)
        = (if root.1 then (1 : Int) else 0) + (others.map Prod.fst).count true := by
      have := foldl_add_flags (others.map Prod.fst) (if root.1 then 1 else 0)
      rw [List.map_map] at this
      exact this
    rw [hfold]
    simp [List.map_const']
  · rw [decide_eq_true_iff, flags_sum_pos]
    simp only [List.mem_cons, List.mem_map, exists_eq_or_imp]

/-! ## `CalcEnergy` -/

theorem CalcEnergy_eq (self : openEMS_FDTD_MPI) (e : ℚ) :
    CalcEnergy self e =
      .reduceDouble .MPI_SUM e 0
        (fun v => .bcastDouble v (fun E => .ret (CalcEnergy_store self E, E))) := by
  simp [CalcEnergy, Prog.bind_eq, Prog.pure_eq, Prog.bind, MPI_Reduce_double,
    MPI_Bcast_double]

theorem foldl_add_eq_sum (es : List ℚ) (s : ℚ) : es.foldl (· + ·) s = s + es.sum := by
  induction es generalizing s with
  | nil => simp
  | cons e es ih =>
    simp only [List.foldl_cons, List.sum_cons]
    rw [ih]
    ring

/-- The world after one `CalcEnergy` on every rank: every rank stores and
returns the sum of the local energies. -/
theorem run_CalcEnergy {γ : Type} (o0 : openEMS_FDTD_MPI) (e0 : ℚ) (cs : List γ)
    (O : γ → openEMS_FDTD_MPI) (E : γ → ℚ) :
    Prog.run (CalcEnergy o0 e0) (cs.map fun c => CalcEnergy (O c) (E c))
      = some ((CalcEnergy_store o0 (e0 + (cs.map E).sum), e0 + (cs.map E).sum),
          cs.map fun c => (CalcEnergy_store (O c) (e0 + (cs.map E).sum),
            e0 + (cs.map E).sum)) := by
  rw [CalcEnergy_eq,
    Prog.run_congr _ cs _
      (fun c => Prog.reduceDouble .MPI_SUM (E c) 0
        (fun v => .bcastDouble v (fun G => .ret (CalcEnergy_store (O c) G, G))))
      (fun c _ => CalcEnergy_eq (O c) (E c)),
    Prog.run_reduceDouble_map, Prog.run_bcastDouble_map, Prog.run_ret_map]
  have hfold : List.foldl MPI_Op.MPI_SUM.applyDouble e0 (List.map E cs)
      = e0 + (cs.map E).sum := foldl_add_eq_sum (cs.map E) e0
  rw [hfold]

/-- The members after storing the global energy `E`. -/
theorem CalcEnergy_store_eq (o : openEMS_FDTD_MPI) (E : ℚ) :
    CalcEnergy_store o E =
      { o with
        m_MaxEnergy := max o.m_MaxEnergy E
        m_EnergyDecrement :=
          if max o.m_MaxEnergy E ≠ 0 then E / max o.m_MaxEnergy E else o.m_EnergyDecrement } := by
  by_cases h : E > o.m_MaxEnergy
  · have hm : max o.m_MaxEnergy E = E := max_eq_right (le_of_lt h)
    simp only [CalcEnergy_store, h, if_true, hm]
    split_ifs <;> rfl
  · have hm : max o.m_MaxEnergy E = o.m_MaxEnergy := max_eq_left (not_lt.1 h)
    simp only [CalcEnergy_store, h, if_false, hm]
    split_ifs <;> rfl

theorem CalcEnergy_store_max (o : openEMS_FDTD_MPI) (E : ℚ) :
    (CalcEnergy_store o E).m_MaxEnergy = max o.m_MaxEnergy E := by
  rw [CalcEnergy_store_eq]

theorem CalcEnergy_store_id (o : openEMS_FDTD_MPI) (E : ℚ) :
    (CalcEnergy_store o E).m_MyID = o.m_MyID := by
  rw [CalcEnergy_store_eq]

theorem CalcEnergy_store_base (o : openEMS_FDTD_MPI) (E : ℚ) :
    (CalcEnergy_store o E).toopenEMS = o.toopenEMS := by
  rw [CalcEnergy_store_eq]

theorem CalcEnergy_store_decrement (o : openEMS_FDTD_MPI) (E : ℚ) :
    (CalcEnergy_store o E).m_EnergyDecrement =
      if max o.m_MaxEnergy E ≠ 0 then E / max o.m_MaxEnergy E else o.m_EnergyDecrement := by
  rw [CalcEnergy_store_eq]

/-- A sequence of samples changes the objects rank by rank, by one function
that never lowers the stored maximum. -/
theorem samples_eq_map (e : Nat → Nat → ℚ) (n k : Nat)
    (w : openEMS_FDTD_MPI × List openEMS_FDTD_MPI × List ℚ) :
    ∃ (f : openEMS_FDTD_MPI → openEMS_FDTD_MPI) (Es : List ℚ),
      samples e n k w = some (f w.1, w.2.1.map f, Es) ∧
      ∀ o, o.m_MaxEnergy ≤ (f o).m_MaxEnergy := by
  induction n generalizing k w with
  | zero => exact ⟨id, w.2.2, by simp [samples], fun o => le_refl _⟩
  | succ n ih =>
    obtain ⟨f, Es, hf, hmono⟩ := ih (k + 1)
      (CalcEnergy_store w.1 (e k w.1.m_MyID + (w.2.1.map fun o => e k o.m_MyID).sum),
        w.2.1.map (fun o =>
          CalcEnergy_store o (e k w.1.m_MyID + (w.2.1.map fun o => e k o.m_MyID).sum)),
        (e k w.1.m_MyID + (w.2.1.map fun o => e k o.m_MyID).sum) :: w.2.2)
    refine ⟨fun o => f (CalcEnergy_store o
      (e k w.1.m_MyID + (w.2.1.map fun o => e k o.m_MyID).sum)), Es, ?_, ?_⟩
    · simp only [samples]
      have h := run_CalcEnergy w.1 (e k w.1.m_MyID) w.2.1 id (fun o => e k o.m_MyID)
      simp only [id] at h
      rw [h]
      simp only [List.map_map, Function.comp_def] at hf ⊢
      exact hf
    · intro o
      refine le_trans ?_ (hmono _)
      rw [CalcEnergy_store_max]
      exact le_max_left _ _

/-- C2. Energy sampling: on every set of ranks with local energies `e_i` and
whatever maxima are stored, `CalcEnergy` returns the sum of all `e_i` on
every rank and leaves on each rank the larger of its stored maximum and that
sum; hence no sequence of samples lowers the stored maximum of any rank. -/
theorem CalcEnergy_returns_sum_and_keeps_max (root : openEMS_FDTD_MPI × ℚ)
    (others : List (openEMS_FDTD_MPI × ℚ)) :
    (∃ (r : openEMS_FDTD_MPI × ℚ) (rs : List (openEMS_FDTD_MPI × ℚ)),
      Prog.run (CalcEnergy root.1 root.2) (others.map fun o => CalcEnergy o.1 o.2)
        = some (r, rs) ∧
      (∀ x ∈ r :: rs, x.2 = ((root :: others).map Prod.snd).sum) ∧
      r.1.m_MaxEnergy = max root.1.m_MaxEnergy ((root :: others).map Prod.snd).sum ∧
      List.Forall₂
        (fun o x => x.1.m_MaxEnergy = max o.1.m_MaxEnergy ((root :: others).map Prod.snd).sum)
        others rs) ∧
    (∀ (e : Nat → Nat → ℚ) (n k : Nat)
        (w : openEMS_FDTD_MPI × List openEMS_FDTD_MPI × List ℚ),
      ∃ w', samples e n k w = some w' ∧
        w.1.m_MaxEnergy ≤ w'.1.m_MaxEnergy ∧
        List.Forall₂ (fun o o' => o.m_MaxEnergy ≤ o'.m_MaxEnergy) w.2.1 w'.2.1) := by
  constructor
  · refine ⟨_, _, run_CalcEnergy root.1 root.2 others Prod.fst Prod.snd, ?_, ?_, ?_⟩
    · intro x hx
      simp only [List.mem_cons, List.mem_map] at hx
      rcases hx with rfl | ⟨c, _, rfl⟩
      · simp
      · simp
    · simp [CalcEnergy_store_max]
    · rw [List.forall₂_map_right_iff, List.forall₂_same]
      intro o _
      simp [CalcEnergy_store_max]
  · intro e n k w
    obtain ⟨f, Es, hf, hmono⟩ := samples_eq_map e n k w
    refine ⟨_, hf, hmono _, ?_⟩
    rw [List.forall₂_map_right_iff, List.forall₂_same]
    intro o _
    exact hmono o

theorem sum_energies_nonneg (en : Nat → ℚ) (hen : ∀ id, 0 ≤ en id) (o0 : openEMS_FDTD_MPI)
    (os : List openEMS_FDTD_MPI) : 0 ≤ en o0.m_MyID + (os.map fun o => en o.m_MyID).sum := by
  apply add_nonneg (hen _)
  apply List.sum_nonneg
  intro x hx
  obtain ⟨o, _, rfl⟩ := List.mem_map.1 hx
  exact hen _

/-- One sample on a world whose ranks all store the maximum `m` and the
decrement `d`: all ranks store the same new values. -/
theorem store_common (o : openEMS_FDTD_MPI) (m d E : ℚ)
    (h : o.m_MaxEnergy = m ∧ o.m_EnergyDecrement = d) :
    (CalcEnergy_store o E).m_MaxEnergy = max m E ∧
      (CalcEnergy_store o E).m_EnergyDecrement = if max m E ≠ 0 then E / max m E else d := by
  rw [CalcEnergy_store_max, CalcEnergy_store_decrement, h.1, h.2]
  exact ⟨rfl, rfl⟩

/-- The decay invariant is kept by every sequence of samples of non-negative
energies. -/
theorem samples_invariant (e : Nat → Nat → ℚ) (he : ∀ k id, 0 ≤ e k id) (n k : Nat)
    (w : openEMS_FDTD_MPI × List openEMS_FDTD_MPI × List ℚ) (m d : ℚ)
    (hall : ∀ o ∈ w.1 :: w.2.1, o.m_MaxEnergy = m ∧ o.m_EnergyDecrement = d)
    (hm : 0 ≤ m) (h0 : m = 0 → d = 1)
    (hpos : 0 < m → ∃ E, w.2.2.head? = some E ∧ d = E / m) :
    ∃ w' m' d', samples e n k w = some w' ∧
      (∀ o ∈ w'.1 :: w'.2.1, o.m_MaxEnergy = m' ∧ o.m_EnergyDecrement = d') ∧
      0 ≤ m' ∧ (m' = 0 → d' = 1) ∧ (0 < m' → ∃ E, w'.2.2.head? = some E ∧ d' = E / m') := by
  induction n generalizing k w m d with
  | zero => exact ⟨w, m, d, by simp [samples], hall, hm, h0, hpos⟩
  | succ n ih =>
    have hE : 0 ≤ e k w.1.m_MyID + (w.2.1.map fun o => e k o.m_MyID).sum :=
      sum_energies_nonneg (e k) (he k) w.1 w.2.1
    generalize hEdef : e k w.1.m_MyID + (w.2.1.map fun o => e k o.m_MyID).sum = E at hE
    have hrun := run_CalcEnergy w.1 (e k w.1.m_MyID) w.2.1 id (fun o => e k o.m_MyID)
    simp only [id, hEdef] at hrun
    have hstep : samples e (n + 1) k w
        = samples e n (k + 1)
            (CalcEnergy_store w.1 E, w.2.1.map (fun o => CalcEnergy_store o E), E :: w.2.2) := by
      simp only [samples]
      rw [hrun]
      simp only [List.map_map, Function.comp_def]
    rw [hstep]
    apply ih (k + 1) _ (max m E) (if max m E ≠ 0 then E / max m E else d)
    · intro o ho
      simp only [List.mem_cons, List.mem_map] at ho
      rcases ho with rfl | ⟨o', ho', rfl⟩
      · exact store_common _ m d E (hall _ (List.mem_cons_self _ _))
      · exact store_common _ m d E (hall _ (List.mem_cons_of_mem _ ho'))
    · exact le_trans hm (le_max_left _ _)
    · intro hmax
      rw [if_neg (not_not.2 hmax)]
      apply h0
      exact le_antisymm (hmax ▸ le_max_left m E) hm
    · intro hmax
      refine ⟨E, rfl, ?_⟩
      rw [if_pos (ne_of_gt hmax)]

/-- C3. Decay ratio invariant: after any number `n` of `CalcEnergy` samples
with non-negative local energies, started from the objects the constructor
leaves, all ranks store one maximum `m >= 0` and one decrement `d`; `d` is
the last global energy over `m` when `m > 0` and exactly 1 when `m = 0`.
A further sample whose global energy is at least `m` leaves on every rank the
maximum equal to that energy and the decrement equal to 1, and then the
leader's test `m_EnergyDecrement < endCrit` fails for every end criterion of
at most 1 (a threshold of 0 dB or more). -/
theorem decay_invariant_of_reachable (e : Nat → Nat → ℚ) (he : ∀ k id, 0 ≤ e k id)
    (n size : Nat) (base0 : openEMS) (bases : List (openEMS × Nat)) :
    ∃ w' m d,
      samples e n 0
          (openEMS_FDTD_MPI.new base0 0 size,
            bases.map (fun b => openEMS_FDTD_MPI.new b.1 b.2 size), []) = some w' ∧
      (∀ o ∈ w'.1 :: w'.2.1, o.m_MaxEnergy = m ∧ o.m_EnergyDecrement = d) ∧
      0 ≤ m ∧ (m = 0 → d = 1) ∧ (0 < m → ∃ E, w'.2.2.head? = some E ∧ d = E / m) ∧
      ∀ en : Nat → ℚ, (∀ id, 0 ≤ en id) →
        m ≤ en w'.1.m_MyID + (w'.2.1.map fun o => en o.m_MyID).sum →
        ∃ r rs,
          Prog.run (CalcEnergy w'.1 (en w'.1.m_MyID))
              (w'.2.1.map fun o => CalcEnergy o (en o.m_MyID)) = some (r, rs) ∧
          ∀ x ∈ r :: rs,
            x.2 = en w'.1.m_MyID + (w'.2.1.map fun o => en o.m_MyID).sum ∧
            x.1.m_MaxEnergy = x.2 ∧ x.1.m_EnergyDecrement = 1 ∧
            (x.1.endCrit ≤ 1 → ¬ x.1.m_EnergyDecrement < x.1.endCrit) := by
  obtain ⟨w', m, d, hrun, hall, hm, h0, hpos⟩ :=
    samples_invariant e he n 0
      (openEMS_FDTD_MPI.new base0 0 size,
        bases.map (fun b => openEMS_FDTD_MPI.new b.1 b.2 size), []) 0 1
      (by
        intro o ho
        simp only [List.mem_cons, List.mem_map] at ho
        rcases ho with rfl | ⟨b, _, rfl⟩
        · exact ⟨rfl, rfl⟩
        · exact ⟨rfl, rfl⟩)
      (le_refl _) (fun _ => rfl) (fun h => absurd h (lt_irrefl _))
  refine ⟨w', m, d, hrun, hall, hm, h0, hpos, ?_⟩
  intro en _ hge
  have hrun' := run_CalcEnergy w'.1 (en w'.1.m_MyID) w'.2.1 id (fun o => en o.m_MyID)
  simp only [id] at hrun'
  generalize en w'.1.m_MyID + (w'.2.1.map fun o => en o.m_MyID).sum = E at hge hrun'
  refine ⟨_, _, hrun', ?_⟩
  have key : ∀ o ∈ w'.1 :: w'.2.1,
      (CalcEnergy_store o E).m_MaxEnergy = E ∧ (CalcEnergy_store o E).m_EnergyDecrement = 1 ∧
        ((CalcEnergy_store o E).endCrit ≤ 1 →
          ¬ (CalcEnergy_store o E).m_EnergyDecrement < (CalcEnergy_store o E).endCrit) := by
    intro o ho
    obtain ⟨h1, h2⟩ := store_common o m d E (hall o ho)
    rw [max_eq_right hge] at h1 h2
    have hd : (CalcEnergy_store o E).m_EnergyDecrement = 1 := by
      rw [h2]
      by_cases hE0 : E = 0
      · rw [if_neg (not_not.2 hE0)]
        exact h0 (le_antisymm (hE0 ▸ hge) hm)
      · rw [if_pos hE0, div_self hE0]
    refine ⟨h1, hd, ?_⟩
    intro hcrit
    rw [hd]
    exact not_lt.2 hcrit
  intro x hx
  simp only [List.mem_cons, List.mem_map] at hx
  rcases hx with rfl | ⟨o, ho, rfl⟩
  · exact ⟨rfl, key _ (List.mem_cons_self _ _)⟩
  · exact ⟨rfl, key _ (List.mem_cons_of_mem _ ho)⟩

/-- Scenario 2: two ranks first sample the energies 1 and 3 (maximum 4); the
invariant holds, and it holds for the sample 2 and 3 that follows. -/
theorem decay_invariant_of_reachable_witness :
    (∀ _k id : Nat, (0 : ℚ) ≤ if id = 0 then 1 else 3) ∧
    ∃ w' m d,
      samples (fun _ id => if id = 0 then 1 else 3) 1 0 (rank0, [rank1], []) = some w' ∧
      (∀ o ∈ w'.1 :: w'.2.1, o.m_MaxEnergy = m ∧ o.m_EnergyDecrement = d) ∧
      0 ≤ m ∧ (m = 0 → d = 1) ∧ (0 < m → ∃ E, w'.2.2.head? = some E ∧ d = E / m) :=
  ⟨fun _ id => by split_ifs <;> norm_num,
    (decay_invariant_of_reachable (fun _ id => if id = 0 then 1 else 3)
      (fun _ id => by dsimp only; split_ifs <;> norm_num) 1 2 base100 [(base100, 1)]).imp
      fun _ h => h.imp fun _ h => h.imp fun _ h => ⟨h.1, h.2.1, h.2.2.1, h.2.2.2.1, h.2.2.2.2.1⟩⟩

/-- Scenario 2, evaluated: with the stored maximum 4, the local energies 2 and 3
give the global energy 5, the maximum 5 and the decrement 1 on both ranks. -/
theorem scenario2_evaluated :
    (Prog.run (CalcEnergy { rank0 with m_MaxEnergy := 4 } 2)
        [CalcEnergy { rank1 with m_MaxEnergy := 4 } 3]).map
      (fun r => (r.1.2, r.1.1.m_MaxEnergy, r.1.1.m_EnergyDecrement,
        r.2.map fun x => (x.2, x.1.m_MaxEnergy, x.1.m_EnergyDecrement)))
      = some (5, 5, 1, [(5, 5, 1)]) := by
  have h := run_CalcEnergy { rank0 with m_MaxEnergy := 4 } 2 [{ rank1 with m_MaxEnergy := 4 }]
    id (fun _ => 3)
  simp only [id, List.map_cons, List.map_nil] at h
  rw [h]
  simp only [CalcEnergy_store_eq]
  norm_num

/-! ## `parseCommandLineArgument` -/

/-- C8. Command-line flag recognition, for a base interpreter that leaves the
base members alone when it does not recognise the argument.  A null argument
returns false and changes nothing.  For a non-null argument the result is true
exactly when the base recognises it or it is the string `--engine=MPI`; when
the base does not recognise it and it is `--engine=MPI` the engine becomes
`EngineType_MPI`, in every other case the object is as the base left it; and
whenever the result is false the object, with its engine selection, is
unchanged. -/
theorem parseCommandLineArgument_recognition (base : String → openEMS → Bool × openEMS)
    (hbase : ∀ arg b, (base arg b).1 = false → (base arg b).2 = b)
    (self : openEMS_FDTD_MPI) :
    parseCommandLineArgument base self none = (false, self, []) ∧
    ∀ arg : String,
      ((parseCommandLineArgument base self (some arg)).1 = true ↔
        ((base arg self.toopenEMS).1 = true ∨ arg = "--engine=MPI")) ∧
      (((base arg self.toopenEMS).1 = false ∧ arg = "--engine=MPI") →
        (parseCommandLineArgument base self (some arg)).2.1.m_engine
          = EngineType.EngineType_MPI) ∧
      (¬ ((base arg self.toopenEMS).1 = false ∧ arg = "--engine=MPI") →
        (parseCommandLineArgument base self (some arg)).2.1
          = { self with toopenEMS := (base arg self.toopenEMS).2 }) ∧
      ((parseCommandLineArgument base self (some arg)).1 = false →
        (parseCommandLineArgument base self (some arg)).2.1 = self) := by
  refine ⟨rfl, fun arg => ?_⟩
  cases hb : (base arg self.toopenEMS).1
  · have hframe := hbase arg self.toopenEMS hb
    by_cases harg : arg = "--engine=MPI"
    · subst harg
      simp [parseCommandLineArgument, hb]
    · simp [parseCommandLineArgument, hb, harg, hframe]
  · simp [parseCommandLineArgument, hb]

/-- The base interpreter `sampleBase` leaves the members alone when it does not
recognise the argument; with it `--engine=MPI` is recognised and selects the
MPI engine, and `--engine=basic` is left to the base. -/
theorem parseCommandLineArgument_recognition_witness :
    (∀ arg b, (sampleBase arg b).1 = false → (sampleBase arg b).2 = b) ∧
    (parseCommandLineArgument sampleBase rank0 (some "--engine=MPI")).1 = true ∧
    (parseCommandLineArgument sampleBase rank0 (some "--bogus")).2.1 = rank0 :=
  have h : ∀ arg b, (sampleBase arg b).1 = false → (sampleBase arg b).2 = b := by
    intro arg b
    unfold sampleBase
    split_ifs <;> simp
  ⟨h,
    ((parseCommandLineArgument_recognition sampleBase h rank0).2 "--engine=MPI").1.2
      (Or.inr rfl),
    ((parseCommandLineArgument_recognition sampleBase h rank0).2 "--bogus").2.2.2
      (by decide)⟩

/-! ## Lockstep execution: mismatches and call sequences -/

namespace Prog
variable {α β γ : Type}

theorem run_ret_mismatch (a : α) (cs : List γ) (P : γ → Prog α) (c : γ) (hc : c ∈ cs)
    (h : (P c).ret? = none) : run (ret a) (cs.map P) = none := by
  have : ¬ ((cs.map P).all fun p => p.ret?.isSome) = true := by
    rw [List.all_eq_true]
    intro hall
    have := hall (P c) (List.mem_map_of_mem P hc)
    rw [h] at this
    simp at this
  simp [run, this]

theorem run_reduceInt_mismatch (op : MPI_Op) (s r : Int) (k : Int → Prog α) (cs : List γ)
    (P : γ → Prog α) (c : γ) (hc : c ∈ cs) (h : (P c).head? ≠ some (.reduceInt op)) :
    run (reduceInt op s r k) (cs.map P) = none := by
  have : ¬ ((cs.map P).all fun p => decide (p.head? = some (.reduceInt op))) = true := by
    rw [List.all_eq_true]
    intro hall
    have := hall (P c) (List.mem_map_of_mem P hc)
    exact h (of_decide_eq_true this)
  simp [run, this]

theorem run_bcastInt_mismatch (b : Int) (k : Int → Prog α) (cs : List γ)
    (P : γ → Prog α) (c : γ) (hc : c ∈ cs) (h : (P c).head? ≠ some .bcastInt) :
    run (bcastInt b k) (cs.map P) = none := by
  have : ¬ ((cs.map P).all fun p => decide (p.head? = some .bcastInt)) = true := by
    rw [List.all_eq_true]
    intro hall
    have := hall (P c) (List.mem_map_of_mem P hc)
    exact h (of_decide_eq_true this)
  simp [run, this]

theorem run_reduceDouble_mismatch (op : MPI_Op) (s r : ℚ) (k : ℚ → Prog α) (cs : List γ)
    (P : γ → Prog α) (c : γ) (hc : c ∈ cs) (h : (P c).head? ≠ some (.reduceDouble op)) :
    run (reduceDouble op s r k) (cs.map P) = none := by
  have : ¬ ((cs.map P).all fun p => decide (p.head? = some (.reduceDouble op))) = true := by
    rw [List.all_eq_true]
    intro hall
    have := hall (P c) (List.mem_map_of_mem P hc)
    exact h (of_decide_eq_true this)
  simp [run, this]

theorem calls_reduceInt_map (op : MPI_Op) (s r : Int) (k : Int → Prog α) (cs : List γ)
    (S R : γ → Int) (K : γ → Int → Prog α) :
    calls (reduceInt op s r k) (cs.map fun c => reduceInt op (S c) (R c) (K c))
      = .reduceInt op ::
          calls (k ((cs.map S).foldl op.applyInt s)) (cs.map fun c => K c (R c)) := by
  simp [calls, List.all_map, head?, sendInt, afterReduce, Function.comp_def]

theorem calls_bcastInt_map (b : Int) (k : Int → Prog α) (cs : List γ)
    (B : γ → Int) (K : γ → Int → Prog α) :
    calls (bcastInt b k) (cs.map fun c => bcastInt (B c) (K c))
      = .bcastInt :: calls (k b) (cs.map fun c => K c b) := by
  simp [calls, List.all_map, head?, afterBcastInt, Function.comp_def]

theorem run_congr_calls (p : Prog α) (cs : List γ) (P Q : γ → Prog α)
    (h : ∀ c ∈ cs, P c = Q c) : calls p (cs.map P) = calls p (cs.map Q) := by
  rw [List.map_congr_left h]

theorem calls_reduceInt_mismatch (op : MPI_Op) (s r : Int) (k : Int → Prog α) (cs : List γ)
    (P : γ → Prog α) (c : γ) (hc : c ∈ cs) (h : (P c).head? ≠ some (.reduceInt op)) :
    calls (reduceInt op s r k) (cs.map P) = [] := by
  have : ¬ ((cs.map P).all fun p => decide (p.head? = some (.reduceInt op))) = true := by
    rw [List.all_eq_true]
    intro hall
    have := hall (P c) (List.mem_map_of_mem P hc)
    exact h (of_decide_eq_true this)
  simp [calls, this]

end Prog

/-! ## Normal forms of the rank programs of a cycle -/

theorem sampleEnergy_eq (s : RunState) (i : CycleIn) :
    sampleEnergy s i =
      .reduceDouble .MPI_SUM i.CalcTotalEnergy 0
        (fun x => .bcastDouble x (fun E => .ret (withSample s E))) := by
  simp [sampleEnergy, CalcEnergy_eq, Prog.bind_eq, Prog.pure_eq, Prog.bind, withSample]

/-- The end of the reporting branch: the leader's block, the broadcast of
`step` and the bookkeeping. -/
theorem reportBranch_eq (s : RunState) (i : CycleIn) :
    reportBranch s i =
      if s.currE = 0 then
        .reduceDouble .MPI_SUM i.CalcTotalEnergy 0
          (fun x => .bcastDouble x (fun E =>
            .bcastInt (reportLeader (withSample s E)).step (fun v =>
              .ret { reportLeader (withSample s E) with
                     step := v, prevTS := (reportLeader (withSample s E)).currTS })))
      else
        .bcastInt (reportLeader s).step (fun v =>
          .ret { reportLeader s with step := v, prevTS := (reportLeader s).currTS }) := by
  unfold reportBranch
  split_ifs with h
  · simp [sampleEnergy_eq, Prog.bind_eq, Prog.pure_eq, Prog.bind, MPI_Bcast_int]
  · simp [Prog.bind_eq, Prog.pure_eq, Prog.bind, MPI_Bcast_int]

/-- The program of the loop body from the test `if (t_diff>4)` on. -/
theorem loopBody_eq (s : RunState) (i : CycleIn)
    (h1 : INT_MIN ≤ budgetAfter s) (h2 : budgetAfter s ≤ INT_MAX) :
    loopBody s i =
      .reduceInt .MPI_MIN (localStep s i) (localStep s i) (fun v => .bcastInt v (fun v =>
        .reduceInt .MPI_SUM (if i.CheckTimestep then 1 else 0) i.result (fun r =>
          .bcastInt r (fun r =>
            if decide (r > 0) = true then
              .reduceDouble .MPI_SUM i.CalcTotalEnergy 0
                (fun x => .bcastDouble x (fun E =>
                  if i.t_diff > 4 then reportBranch (sampled v true E s) i
                  else .ret (sampled v true E s)))
            else
              if i.t_diff > 4 then reportBranch (sampled v false 0 s) i
              else .ret (sampled v false 0 s))))) := by
  have hB : ((IterateTS s.self (intToUnsigned s.step)).NrTS : Int)
      - (IterateTS s.self (intToUnsigned s.step)).numTS = budgetAfter s := rfl
  unfold loopBody
  simp only [GetNextStep_eq _ _ _ hB h1 h2, CheckEnergyCalc_eq, Prog.bind_eq, Prog.pure_eq,
    Prog.bind, sampleEnergy_eq]
  unfold localStep
  congr 1

theorem loopBody_ub (s : RunState) (i : CycleIn)
    (h : ¬ (INT_MIN ≤ budgetAfter s ∧ budgetAfter s ≤ INT_MAX)) :
    loopBody s i = .ub := by
  have hB : doubleToInt (((IterateTS s.self (intToUnsigned s.step)).NrTS : Int)
      - (IterateTS s.self (intToUnsigned s.step)).numTS) = none := by
    have : ((IterateTS s.self (intToUnsigned s.step)).NrTS : Int)
      - (IterateTS s.self (intToUnsigned s.step)).numTS = budgetAfter s := rfl
    rw [this]
    simp only [doubleToInt, h, if_false]
  unfold loopBody
  simp only [GetNextStep, hB, Prog.bind_eq, Prog.bind]

theorem reportBranch_ret? (s : RunState) (i : CycleIn) : (reportBranch s i).ret? = none := by
  rw [reportBranch_eq]
  split_ifs <;> rfl

theorem sampled_currE (v : Int) (b : Bool) (E : ℚ) (s : RunState) :
    (sampled v b E s).currE = if b then E else 0 := by
  cases b <;> rfl

/-- The reporting branch on every rank of a world whose ranks hold the same
`currE`: every rank ends with the `step` rank 0 broadcasts. -/
theorem run_reportBranch {γ : Type} (s0 : RunState) (i0 : CycleIn) (cs : List γ)
    (S : γ → RunState) (I : γ → CycleIn)
    (hS : ∀ c ∈ cs, (S c).currE = s0.currE) :
    Prog.run (reportBranch s0 i0) (cs.map fun c => reportBranch (S c) (I c))
      = some
          ({ reportEntry (i0.CalcTotalEnergy + (cs.map fun c => (I c).CalcTotalEnergy).sum) s0
             with
             step := (reportEntry
               (i0.CalcTotalEnergy + (cs.map fun c => (I c).CalcTotalEnergy).sum) s0).step
             prevTS := (reportEntry
               (i0.CalcTotalEnergy + (cs.map fun c => (I c).CalcTotalEnergy).sum) s0).currTS },
           cs.map fun c =>
            { reportEntry (i0.CalcTotalEnergy + (cs.map fun c => (I c).CalcTotalEnergy).sum)
                (S c) with
              step := (reportEntry
                (i0.CalcTotalEnergy + (cs.map fun c => (I c).CalcTotalEnergy).sum) s0).step
              prevTS := (reportEntry
                (i0.CalcTotalEnergy + (cs.map fun c => (I c).CalcTotalEnergy).sum)
                (S c)).currTS }) := by
  by_cases h0 : s0.currE = 0
  · rw [reportBranch_eq, if_pos h0,
      Prog.run_congr _ cs _
        (fun c => Prog.reduceDouble .MPI_SUM (I c).CalcTotalEnergy 0
          (fun x => .bcastDouble x (fun E =>
            .bcastInt (reportLeader (withSample (S c) E)).step (fun v =>
              .ret { reportLeader (withSample (S c) E) with
                     step := v, prevTS := (reportLeader (withSample (S c) E)).currTS }))))
        (fun c hc => by rw [reportBranch_eq, if_pos ((hS c hc).trans h0)]),
      Prog.run_reduceDouble_map, Prog.run_bcastDouble_map, Prog.run_bcastInt_map,
      Prog.run_ret_map]
    have hfold : List.foldl MPI_Op.MPI_SUM.applyDouble i0.CalcTotalEnergy
        (List.map (fun c => (I c).CalcTotalEnergy) cs)
        = i0.CalcTotalEnergy + (cs.map fun c => (I c).CalcTotalEnergy).sum :=
      foldl_add_eq_sum _ _
    rw [hfold]
    simp only [reportEntry, h0, if_true]
    congr 2
    apply List.map_congr_left
    intro c hc
    rw [if_pos ((hS c hc).trans h0)]
  · rw [reportBranch_eq, if_neg h0,
      Prog.run_congr _ cs _
        (fun c => Prog.bcastInt (reportLeader (S c)).step (fun v =>
          .ret { reportLeader (S c) with step := v, prevTS := (reportLeader (S c)).currTS }))
        (fun c hc => by
          rw [reportBranch_eq, if_neg (fun h => h0 ((hS c hc).symm.trans h))]),
      Prog.run_bcastInt_map, Prog.run_ret_map]
    simp only [reportEntry, h0, if_false]
    congr 2
    apply List.map_congr_left
    intro c hc
    rw [if_neg (fun h => h0 ((hS c hc).symm.trans h))]

/-- The test `if (t_diff>4)` on every rank, when every rank decides as rank 0. -/
theorem run_report_agree {γ : Type} (s0 : RunState) (i0 : CycleIn) (cs : List γ)
    (S : γ → RunState) (I : γ → CycleIn)
    (hS : ∀ c ∈ cs, (S c).currE = s0.currE)
    (hagree : ∀ c ∈ cs, ((I c).t_diff > 4 ↔ i0.t_diff > 4)) :
    Prog.run (if i0.t_diff > 4 then reportBranch s0 i0 else .ret s0)
        (cs.map fun c => if (I c).t_diff > 4 then reportBranch (S c) (I c) else .ret (S c))
      = some
          (if i0.t_diff > 4 then
            { reportEntry (i0.CalcTotalEnergy + (cs.map fun c => (I c).CalcTotalEnergy).sum) s0
              with
              step := (reportEntry
                (i0.CalcTotalEnergy + (cs.map fun c => (I c).CalcTotalEnergy).sum) s0).step
              prevTS := (reportEntry
                (i0.CalcTotalEnergy + (cs.map fun c => (I c).CalcTotalEnergy).sum)
                s0).currTS }
           else s0,
           cs.map fun c =>
            if (I c).t_diff > 4 then
              { reportEntry (i0.CalcTotalEnergy + (cs.map fun c => (I c).CalcTotalEnergy).sum)
                  (S c) with
                step := (reportEntry
                  (i0.CalcTotalEnergy + (cs.map fun c => (I c).CalcTotalEnergy).sum) s0).step
                prevTS := (reportEntry
                  (i0.CalcTotalEnergy + (cs.map fun c => (I c).CalcTotalEnergy).sum)
                  (S c)).currTS }
            else S c) := by
  by_cases h0 : i0.t_diff > 4
  · rw [if_pos h0, if_pos h0,
      Prog.run_congr _ cs _ (fun c => reportBranch (S c) (I c))
        (fun c hc => by rw [if_pos ((hagree c hc).2 h0)]),
      run_reportBranch s0 i0 cs S I hS]
    congr 2
    apply List.map_congr_left
    intro c hc
    rw [if_pos ((hagree c hc).2 h0)]
  · rw [if_neg h0, if_neg h0,
      Prog.run_congr _ cs _ (fun c => Prog.ret (S c))
        (fun c hc => by rw [if_neg (fun h => h0 ((hagree c hc).1 h))]),
      Prog.run_ret_map]
    congr 2
    apply List.map_congr_left
    intro c hc
    rw [if_neg (fun h => h0 ((hagree c hc).1 h))]

/-- The test `if (t_diff>4)` when some rank does not decide as rank 0: the
collectives of the ranks do not match. -/
theorem run_report_disagree {γ : Type} (s0 : RunState) (i0 : CycleIn) (cs : List γ)
    (S : γ → RunState) (I : γ → CycleIn) (c : γ) (hc : c ∈ cs)
    (hdis : ¬ ((I c).t_diff > 4 ↔ i0.t_diff > 4)) :
    Prog.run (if i0.t_diff > 4 then reportBranch s0 i0 else .ret s0)
        (cs.map fun c => if (I c).t_diff > 4 then reportBranch (S c) (I c) else .ret (S c))
      = none := by
  by_cases h0 : i0.t_diff > 4
  · have hc4 : ¬ (I c).t_diff > 4 := fun h => hdis ⟨fun _ => h0, fun _ => h⟩
    rw [if_pos h0, reportBranch_eq]
    split_ifs
    · apply Prog.run_reduceDouble_mismatch _ _ _ _ cs _ c hc
      simp only [hc4, if_false, Prog.head?]
      exact fun h => nomatch h
    · apply Prog.run_bcastInt_mismatch _ _ cs _ c hc
      simp only [hc4, if_false, Prog.head?]
      exact fun h => nomatch h
  · have hc4 : (I c).t_diff > 4 := by
      by_contra h
      exact hdis ⟨fun h' => absurd h' h, fun h' => absurd h' h0⟩
    rw [if_neg h0]
    apply Prog.run_ret_mismatch _ cs _ c hc
    simp only [hc4, if_true, reportBranch_ret?]

/-! ## One cycle of the world in closed form -/

theorem flags_decide (f0 : Bool) (fs : List Bool) :
    decide ((fs.map fun f => if f then (1 : Int) else 0).foldl (· + ·) (if f0 then 1 else 0) > 0)
      = (f0 || fs.any id) := by
  rw [foldl_add_flags]
  rw [Bool.eq_iff_iff, decide_eq_true_iff, flags_sum_pos]
  simp

theorem any_map_id {γ : Type} (F : γ → Bool) (cs : List γ) :
    (cs.map F).any id = cs.any F := by
  induction cs with
  | nil => rfl
  | cons c cs ih => simp [ih]

/-- The lockstep execution of the loop body when the budgets of all ranks fit
an `int`: the four collectives of `GetNextStep` and `CheckEnergyCalc` and the
sample they may trigger are done by all ranks alike; what is left is the test
`if (t_diff>4)`. -/
theorem run_loopBody_to_report (env : Nat → CycleIn) (root : RunState) (cs : List RunState)
    (hfit : ∀ s ∈ root :: cs, INT_MIN ≤ budgetAfter s ∧ budgetAfter s ≤ INT_MAX) :
    Prog.run (loopBody root (env root.self.m_MyID))
        (cs.map fun s => loopBody s (env s.self.m_MyID))
      = Prog.run
          (if (env root.self.m_MyID).t_diff > 4 then
            reportBranch
              (sampled (negotiated env ⟨root, cs⟩) (requested env ⟨root, cs⟩)
                (globalEnergy env ⟨root, cs⟩) root) (env root.self.m_MyID)
           else .ret (sampled (negotiated env ⟨root, cs⟩) (requested env ⟨root, cs⟩)
                (globalEnergy env ⟨root, cs⟩) root))
          (cs.map fun s =>
            if (env s.self.m_MyID).t_diff > 4 then
              reportBranch
                (sampled (negotiated env ⟨root, cs⟩) (requested env ⟨root, cs⟩)
                  (globalEnergy env ⟨root, cs⟩) s) (env s.self.m_MyID)
            else .ret (sampled (negotiated env ⟨root, cs⟩) (requested env ⟨root, cs⟩)
                  (globalEnergy env ⟨root, cs⟩) s)) := by
  have hr := hfit root (List.mem_cons_self _ _)
  rw [loopBody_eq root _ hr.1 hr.2,
    Prog.run_congr _ cs _ _
      (fun s hs => loopBody_eq s (env s.self.m_MyID)
        (hfit s (List.mem_cons_of_mem _ hs)).1 (hfit s (List.mem_cons_of_mem _ hs)).2),
    Prog.run_reduceInt_map, Prog.run_bcastInt_map, Prog.run_reduceInt_map,
    Prog.run_bcastInt_map]
  have hv : List.foldl MPI_Op.MPI_MIN.applyInt (localStep root (env root.self.m_MyID))
      (List.map (fun c : RunState => localStep c (env c.self.m_MyID)) cs)
      = negotiated env ⟨root, cs⟩ := rfl
  have hb : decide (List.foldl MPI_Op.MPI_SUM.applyInt
      (if (env root.self.m_MyID).CheckTimestep = true then 1 else 0)
      (List.map (fun c : RunState => if (env c.self.m_MyID).CheckTimestep = true then (1 : Int)
        else 0) cs) > 0) = requested env ⟨root, cs⟩ := by
    have := flags_decide (env root.self.m_MyID).CheckTimestep
      (cs.map fun c => (env c.self.m_MyID).CheckTimestep)
    rw [List.map_map, any_map_id] at this
    simp only [requested, World.ranks, List.any_cons]
    exact this
  rw [hv, hb]
  cases hreq : requested env ⟨root, cs⟩
  · simp only [Bool.false_eq_true, if_false]
    rfl
  · simp only [if_true]
    rw [Prog.run_reduceDouble_map, Prog.run_bcastDouble_map]
    have hE : List.foldl MPI_Op.MPI_SUM.applyDouble (env root.self.m_MyID).CalcTotalEnergy
        (List.map (fun c : RunState => (env c.self.m_MyID).CalcTotalEnergy) cs)
        = globalEnergy env ⟨root, cs⟩ := by
      simp only [globalEnergy, World.ranks, List.map_cons, List.sum_cons]
      exact foldl_add_eq_sum _ _
    rw [hE]

theorem globalEnergy_eq (env : Nat → CycleIn) (root : RunState) (cs : List RunState) :
    (env root.self.m_MyID).CalcTotalEnergy
        + (cs.map fun c => (env c.self.m_MyID).CalcTotalEnergy).sum
      = globalEnergy env ⟨root, cs⟩ := by
  simp only [globalEnergy, World.ranks, List.map_cons, List.sum_cons]

/-- A world that meets `cycleDefined` completes the cycle, and the world after
it is `cycleWorld`. -/
theorem worldCycle_defined (env : Nat → CycleIn) (w : World) (h : cycleDefined env w) :
    worldCycle env w = some (cycleWorld env w) := by
  obtain ⟨root, cs⟩ := w
  obtain ⟨hcond, hfit, hagree⟩ := h
  have hall : (World.ranks ⟨root, cs⟩).all (fun s => loopCond s (env s.self.m_MyID)) = true :=
    List.all_eq_true.2 hcond
  unfold worldCycle
  rw [if_pos hall]
  simp only []
  rw [run_loopBody_to_report env root cs hfit,
    run_report_agree _ _ cs _ (fun c => env c.self.m_MyID)
      (fun c _ => by rw [sampled_currE, sampled_currE]) hagree,
    globalEnergy_eq]
  simp only [Option.map_some', cycleWorld, cycleOutcome]

/-- A world that does not meet `cycleDefined` does not complete the cycle. -/
theorem worldCycle_undefined (env : Nat → CycleIn) (w : World) (h : ¬ cycleDefined env w) :
    worldCycle env w = none := by
  obtain ⟨root, cs⟩ := w
  unfold worldCycle
  by_cases hcond : ∀ s ∈ World.ranks ⟨root, cs⟩, loopCond s (env s.self.m_MyID) = true
  swap
  · have : ¬ (World.ranks ⟨root, cs⟩).all (fun s => loopCond s (env s.self.m_MyID)) = true :=
      fun hall => hcond (List.all_eq_true.1 hall)
    rw [if_neg this]
  rw [if_pos (List.all_eq_true.2 hcond)]
  simp only [Option.map_eq_none']
  by_cases hfit : ∀ s ∈ World.ranks ⟨root, cs⟩,
      INT_MIN ≤ budgetAfter s ∧ budgetAfter s ≤ INT_MAX
  · have hdis : ¬ ∀ s ∈ cs,
        ((env s.self.m_MyID).t_diff > 4 ↔ (env root.self.m_MyID).t_diff > 4) :=
      fun hag => h ⟨hcond, hfit, hag⟩
    push_neg at hdis
    obtain ⟨c, hc, hne⟩ := hdis
    rw [run_loopBody_to_report env root cs hfit]
    exact run_report_disagree _ _ cs _ (fun c => env c.self.m_MyID) c hc
      (fun hiff => by
        rcases hne with ⟨h1, h2⟩ | ⟨h1, h2⟩
        · exact absurd (hiff.1 h1) (not_lt.2 h2)
        · exact absurd (hiff.2 h2) (not_lt.2 h1))
  · push_neg at hfit
    obtain ⟨s, hs, hbad⟩ := hfit
    have hbad' : ¬ (INT_MIN ≤ budgetAfter s ∧ budgetAfter s ≤ INT_MAX) :=
      fun hh => absurd hh.2 (not_le.2 (hbad hh.1))
    simp only [World.ranks, List.mem_cons] at hs
    rcases hs with rfl | hs
    · rw [loopBody_ub _ _ hbad']
      rfl
    · by_cases hroot : INT_MIN ≤ budgetAfter root ∧ budgetAfter root ≤ INT_MAX
      · rw [loopBody_eq root _ hroot.1 hroot.2]
        apply Prog.run_reduceInt_mismatch _ _ _ _ cs _ s hs
        rw [loopBody_ub _ _ hbad']
        exact fun hh => nomatch hh
      · rw [loopBody_ub _ _ hroot]
        rfl

/-- The world completes a cycle exactly under `cycleDefined`, and the world
after the cycle is `cycleWorld`. -/
theorem worldCycle_eq (env : Nat → CycleIn) (w w' : World) :
    worldCycle env w = some w' ↔ cycleDefined env w ∧ w' = cycleWorld env w := by
  constructor
  · intro h
    by_cases hd : cycleDefined env w
    · rw [worldCycle_defined env w hd] at h
      exact ⟨hd, (Option.some.inj h).symm⟩
    · rw [worldCycle_undefined env w hd] at h
      exact absurd h (by simp)
  · rintro ⟨hd, rfl⟩
    exact worldCycle_defined env w hd

/-! ## What a cycle does to the members of a rank -/

theorem reportLeader_self (s : RunState) : (reportLeader s).self = s.self := by
  unfold reportLeader
  by_cases h1 : s.self.m_MyID = 0
  · by_cases h2 : s.self.m_EnergyDecrement < s.self.endCrit
    · simp [h1, h2]
    · simp [h1, h2]
  · simp [h1]

theorem reportLeader_step (s : RunState) :
    (reportLeader s).step =
      if s.self.m_MyID = 0 ∧ s.self.m_EnergyDecrement < s.self.endCrit then 0 else s.step := by
  unfold reportLeader
  by_cases h1 : s.self.m_MyID = 0
  · by_cases h2 : s.self.m_EnergyDecrement < s.self.endCrit
    · simp [h1, h2]
    · simp [h1, h2]
  · simp [h1]

theorem withSample_self (s : RunState) (E : ℚ) :
    (withSample s E).self = CalcEnergy_store s.self E := rfl

theorem withSample_step (s : RunState) (E : ℚ) : (withSample s E).step = s.step := rfl

theorem sampled_step (v : Int) (b : Bool) (E : ℚ) (s : RunState) :
    (sampled v b E s).step = unsignedToInt (intToUnsigned v) := by
  cases b <;> rfl

theorem sampled_self (v : Int) (b : Bool) (E : ℚ) (s : RunState) :
    (sampled v b E s).self =
      if b then CalcEnergy_store (IterateTS s.self (intToUnsigned s.step)) E
      else IterateTS s.self (intToUnsigned s.step) := by
  cases b <;> rfl

theorem sampled_base (v : Int) (b : Bool) (E : ℚ) (s : RunState) :
    (sampled v b E s).self.toopenEMS = (IterateTS s.self (intToUnsigned s.step)).toopenEMS := by
  rw [sampled_self]
  split_ifs
  · exact CalcEnergy_store_base _ _
  · rfl

theorem sampled_id (v : Int) (b : Bool) (E : ℚ) (s : RunState) :
    (sampled v b E s).self.m_MyID = s.self.m_MyID := by
  rw [sampled_self]
  split_ifs
  · exact CalcEnergy_store_id _ _
  · rfl

theorem reportEntry_self (E : ℚ) (s : RunState) :
    (reportEntry E s).self = if s.currE = 0 then CalcEnergy_store s.self E else s.self := by
  unfold reportEntry
  rw [reportLeader_self]
  split_ifs <;> rfl

theorem reportEntry_base (E : ℚ) (s : RunState) :
    (reportEntry E s).self.toopenEMS = s.self.toopenEMS := by
  rw [reportEntry_self]
  split_ifs
  · exact CalcEnergy_store_base _ _
  · rfl

theorem reportEntry_step (E : ℚ) (s : RunState) :
    (reportEntry E s).step =
      if s.self.m_MyID = 0 ∧
          (reportEntry E s).self.m_EnergyDecrement < (reportEntry E s).self.endCrit
      then 0 else s.step := by
  rw [reportEntry_self]
  unfold reportEntry
  rw [reportLeader_step]
  by_cases h : s.currE = 0
  · simp only [h, if_true, withSample_self, withSample_step, CalcEnergy_store_id]
  · simp only [h, if_false]

/-- The base members of a rank after a cycle: only the engine's timestep
count has changed, by the step the cycle started with. -/
theorem cycleOutcome_base (i : CycleIn) (v : Int) (b : Bool) (E : ℚ) (rs : Int)
    (s : RunState) :
    (cycleOutcome i v b E rs s).self.toopenEMS
      = { s.self.toopenEMS with numTS := s.self.numTS + intToUnsigned s.step } := by
  unfold cycleOutcome
  split_ifs
  · show (reportEntry E (sampled v b E s)).self.toopenEMS = _
    rw [reportEntry_base, sampled_base]
    rfl
  · rw [sampled_base]
    rfl

theorem cycleOutcome_id (i : CycleIn) (v : Int) (b : Bool) (E : ℚ) (rs : Int)
    (s : RunState) : (cycleOutcome i v b E rs s).self.m_MyID = s.self.m_MyID := by
  unfold cycleOutcome
  split_ifs
  · show (reportEntry E (sampled v b E s)).self.m_MyID = _
    rw [reportEntry_self]
    split_ifs
    · rw [CalcEnergy_store_id, sampled_id]
    · rw [sampled_id]
  · rw [sampled_id]

theorem cycleOutcome_step (i : CycleIn) (v : Int) (b : Bool) (E : ℚ) (rs : Int)
    (s : RunState) :
    (cycleOutcome i v b E rs s).step
      = if i.t_diff > 4 then rs else unsignedToInt (intToUnsigned v) := by
  unfold cycleOutcome
  split_ifs
  · rfl
  · rw [sampled_step]

/-! ## The budget bound -/

theorem localStep_bounds (s : RunState) (i : CycleIn) (h : 0 ≤ budgetAfter s) :
    0 ≤ localStep s i ∧ localStep s i ≤ budgetAfter s := by
  unfold localStep
  split_ifs with hc
  · exact ⟨h, le_refl _⟩
  · push_neg at hc
    exact ⟨hc.1, hc.2⟩

theorem negotiated_le (env : Nat → CycleIn) (w : World) (s : RunState) (hs : s ∈ w.ranks) :
    negotiated env w ≤ localStep s (env s.self.m_MyID) := by
  unfold negotiated
  simp only [World.ranks, List.mem_cons] at hs
  rcases hs with rfl | hs
  · exact (foldl_min_le _ _).1
  · exact (foldl_min_le _ _).2 _ (List.mem_map_of_mem _ hs)

theorem negotiated_nonneg (env : Nat → CycleIn) (w : World)
    (h : ∀ s ∈ w.ranks, 0 ≤ localStep s (env s.self.m_MyID)) : 0 ≤ negotiated env w := by
  unfold negotiated
  apply foldl_min_nonneg _ _ (h _ (List.mem_cons_self _ _))
  intro p hp
  obtain ⟨s, hs, rfl⟩ := List.mem_map.1 hp
  exact h s (List.mem_cons_of_mem _ hs)

theorem intToUnsigned_cast {x : Int} (h1 : 0 ≤ x) (h2 : x ≤ INT_MAX) :
    ((intToUnsigned x : Nat) : Int) = x := by
  rw [intToUnsigned_of_fits h1 h2]
  exact Int.toNat_of_nonneg h1

theorem budgetAfter_eq (N : Nat) (s : RunState) (hJ : budgetKept N s) (hpos : 0 < s.step) :
    budgetAfter s = (N : Int) - (s.self.numTS + s.step) := by
  unfold budgetAfter
  rw [hJ.1]
  push_cast
  rw [intToUnsigned_cast (le_of_lt hpos) hJ.2.2.1]

theorem loopCond_pos (s : RunState) (i : CycleIn) (h : loopCond s i = true) : 0 < s.step := by
  unfold loopCond at h
  simp only [Bool.and_eq_true, decide_eq_true_eq] at h
  exact h.1

/-- The step rank 0 broadcasts in the reporting branch is the negotiated step
or zero. -/
theorem rootStep_cases (v : Int) (b : Bool) (E : ℚ) (s : RunState) :
    (reportEntry E (sampled v b E s)).step = 0 ∨
      (reportEntry E (sampled v b E s)).step = unsignedToInt (intToUnsigned v) := by
  rw [reportEntry_step]
  split_ifs
  · exact Or.inl rfl
  · exact Or.inr (sampled_step v b E s)

/-- A completed cycle keeps the budget invariant on every rank and advances
the timestep count of rank 0 by at least one. -/
theorem cycle_keeps_budget (N : Nat) (env : Nat → CycleIn) (w : World)
    (hJ : ∀ s ∈ w.ranks, budgetKept N s) (hd : cycleDefined env w) :
    (∀ s ∈ (cycleWorld env w).ranks, budgetKept N s) ∧
      w.root.self.numTS + 1 ≤ (cycleWorld env w).root.self.numTS := by
  obtain ⟨hcond, hfit, -⟩ := hd
  have hbud : ∀ s ∈ w.ranks, 0 ≤ budgetAfter s := by
    intro s hs
    rw [budgetAfter_eq N s (hJ s hs) (loopCond_pos s _ (hcond s hs))]
    have := (hJ s hs).2.2.2
    omega
  have hv0 : 0 ≤ negotiated env w :=
    negotiated_nonneg env w (fun s hs => (localStep_bounds s _ (hbud s hs)).1)
  have hvle : ∀ s ∈ w.ranks, negotiated env w ≤ budgetAfter s := fun s hs =>
    le_trans (negotiated_le env w s hs) (localStep_bounds s _ (hbud s hs)).2
  have hvmax : negotiated env w ≤ INT_MAX :=
    le_trans (hvle w.root (List.mem_cons_self _ _)) (hfit _ (List.mem_cons_self _ _)).2
  have hconv : unsignedToInt (intToUnsigned (negotiated env w)) = negotiated env w :=
    unsignedToInt_intToUnsigned hv0 hvmax
  have key : ∀ s ∈ w.ranks, ∀ i : CycleIn,
      budgetKept N (cycleOutcome i (negotiated env w) (requested env w) (globalEnergy env w)
        (reportEntry (globalEnergy env w)
          (sampled (negotiated env w) (requested env w) (globalEnergy env w) w.root)).step s) ∧
      s.self.numTS + 1 ≤ (cycleOutcome i (negotiated env w) (requested env w)
        (globalEnergy env w)
        (reportEntry (globalEnergy env w)
          (sampled (negotiated env w) (requested env w) (globalEnergy env w) w.root)).step
          s).self.numTS := by
    intro s hs i
    have hpos := loopCond_pos s _ (hcond s hs)
    have hJs := hJ s hs
    have hu : ((intToUnsigned s.step : Nat) : Int) = s.step :=
      intToUnsigned_cast (le_of_lt hpos) hJs.2.2.1
    have hbase := cycleOutcome_base i (negotiated env w) (requested env w) (globalEnergy env w)
      (reportEntry (globalEnergy env w)
        (sampled (negotiated env w) (requested env w) (globalEnergy env w) w.root)).step s
    have hN : (cycleOutcome i (negotiated env w) (requested env w) (globalEnergy env w)
      (reportEntry (globalEnergy env w)
        (sampled (negotiated env w) (requested env w) (globalEnergy env w) w.root)).step
        s).self.NrTS = s.self.NrTS := by
      show (cycleOutcome _ _ _ _ _ s).self.toopenEMS.NrTS = _
      rw [hbase]
    have hT : (cycleOutcome i (negotiated env w) (requested env w) (globalEnergy env w)
      (reportEntry (globalEnergy env w)
        (sampled (negotiated env w) (requested env w) (globalEnergy env w) w.root)).step
        s).self.numTS = s.self.numTS + intToUnsigned s.step := by
      show (cycleOutcome _ _ _ _ _ s).self.toopenEMS.numTS = _
      rw [hbase]
    have hstep := cycleOutcome_step i (negotiated env w) (requested env w) (globalEnergy env w)
      (reportEntry (globalEnergy env w)
        (sampled (negotiated env w) (requested env w) (globalEnergy env w) w.root)).step s
    have hB := budgetAfter_eq N s hJs hpos
    have hvs := hvle s hs
    have hcases : (cycleOutcome i (negotiated env w) (requested env w) (globalEnergy env w)
      (reportEntry (globalEnergy env w)
        (sampled (negotiated env w) (requested env w) (globalEnergy env w) w.root)).step
        s).step = 0 ∨ (cycleOutcome i (negotiated env w) (requested env w) (globalEnergy env w)
      (reportEntry (globalEnergy env w)
        (sampled (negotiated env w) (requested env w) (globalEnergy env w) w.root)).step
        s).step = negotiated env w := by
      rw [hstep]
      split_ifs
      · rcases rootStep_cases (negotiated env w) (requested env w) (globalEnergy env w) w.root
          with h | h
        · exact Or.inl h
        · exact Or.inr (h.trans hconv)
      · exact Or.inr hconv
    have hmax0 : (0 : Int) ≤ INT_MAX := by decide
    refine ⟨⟨hN.trans hJs.1, ?_, ?_, ?_⟩, ?_⟩
    · rw [hT]
      have := hJs.2.2.2
      omega
    · rcases hcases with h | h
      · rw [h]; exact hmax0
      · rw [h]; exact hvmax
    · rw [hT]
      push_cast
      rw [hu]
      rcases hcases with h | h
      · rw [h]
        have := hJs.2.2.2
        omega
      · rw [h]
        omega
    · rw [hT]
      omega
  constructor
  · intro s' hs'
    simp only [cycleWorld, World.ranks, List.mem_cons, List.mem_map] at hs'
    rcases hs' with rfl | ⟨s, hs, rfl⟩
    · exact (key w.root (List.mem_cons_self _ _) _).1
    · exact (key s (List.mem_cons_of_mem _ hs) _).1
  · exact (key w.root (List.mem_cons_self _ _) _).2

/-- The loop keeps the budget invariant in every world it reaches and
completes no more cycles than the budget of rank 0 has timesteps left. -/
theorem simulate_keeps_budget (N : Nat) (env : Nat → Nat → CycleIn) (n k : Nat) (w : World)
    (hJ : ∀ s ∈ w.ranks, budgetKept N s) :
    (∀ w' ∈ simulate env n k w, ∀ s ∈ w'.ranks, budgetKept N s) ∧
      (simulate env n k w).length + w.root.self.numTS ≤ N := by
  induction n generalizing k w with
  | zero =>
    simp only [simulate, List.not_mem_nil, false_imp_iff, implies_true, List.length_nil,
      zero_add, true_and]
    exact (hJ _ (List.mem_cons_self _ _)).2.1
  | succ n ih =>
    cases hc : worldCycle (env k) w with
    | none =>
      simp only [simulate, hc, List.not_mem_nil, false_imp_iff, implies_true, List.length_nil,
        zero_add, true_and]
      exact (hJ _ (List.mem_cons_self _ _)).2.1
    | some w' =>
      obtain ⟨hd, rfl⟩ := (worldCycle_eq (env k) w w').1 hc
      obtain ⟨hJ', hadv⟩ := cycle_keeps_budget N (env k) w hJ hd
      obtain ⟨ih1, ih2⟩ := ih (k + 1) (cycleWorld (env k) w) hJ'
      simp only [simulate, hc, List.mem_cons, List.length_cons]
      constructor
      · rintro w'' (rfl | hw'')
        · exact hJ'
        · exact ih1 w'' hw''
      · omega

/-- The programs of `GetNextStep` on every rank of a world whose budgets all fit
an `int`: every rank receives the least of the clipped proposals. -/
theorem run_GetNextStep {γ : Type} (o0 : openEMS_FDTD_MPI) (p0 : Int) (cs : List γ)
    (O : γ → openEMS_FDTD_MPI) (P : γ → Int)
    (h0 : INT_MIN ≤ (o0.NrTS : Int) - o0.numTS ∧ (o0.NrTS : Int) - o0.numTS ≤ INT_MAX)
    (hcs : ∀ c ∈ cs, INT_MIN ≤ ((O c).NrTS : Int) - (O c).numTS ∧
      ((O c).NrTS : Int) - (O c).numTS ≤ INT_MAX) :
    Prog.run (GetNextStep o0 p0) (cs.map fun c => GetNextStep (O c) (P c))
      = some
          (intToUnsigned ((cs.map fun c =>
              if P c < 0 ∨ P c > ((O c).NrTS : Int) - (O c).numTS
              then ((O c).NrTS : Int) - (O c).numTS else P c).foldl min
            (if p0 < 0 ∨ p0 > (o0.NrTS : Int) - o0.numTS
              then (o0.NrTS : Int) - o0.numTS else p0)),
           cs.map fun _ =>
            intToUnsigned ((cs.map fun c =>
              if P c < 0 ∨ P c > ((O c).NrTS : Int) - (O c).numTS
              then ((O c).NrTS : Int) - (O c).numTS else P c).foldl min
            (if p0 < 0 ∨ p0 > (o0.NrTS : Int) - o0.numTS
              then (o0.NrTS : Int) - o0.numTS else p0))) := by
  rw [GetNextStep_eq o0 p0 _ rfl h0.1 h0.2,
    Prog.run_congr _ cs _ _
      (fun c hc => GetNextStep_eq (O c) (P c) _ rfl (hcs c hc).1 (hcs c hc).2),
    Prog.run_reduceInt_map, Prog.run_bcastInt_map, Prog.run_ret_map]
  rfl

theorem GetNextStep_ub (o : openEMS_FDTD_MPI) (p : Int)
    (h : ¬ (INT_MIN ≤ (o.NrTS : Int) - o.numTS ∧ (o.NrTS : Int) - o.numTS ≤ INT_MAX)) :
    GetNextStep o p = .ub := by
  simp only [GetNextStep, doubleToInt, h, if_false]

theorem RunFDTD_start_eq (o : openEMS_FDTD_MPI) (p : Int) :
    RunFDTD_start o p =
      (GetNextStep o p).bind fun step =>
        .ret { self := o, step := unsignedToInt step, currE := 0, currTS := 0, prevTS := 0,
               cout := [] } := rfl

/-- The world before the first cycle keeps the budget invariant when all ranks
start at timestep 0 with the budget `N`. -/
theorem worldStart_keeps_budget (N : Nat) (first : Nat → Int) (root : openEMS_FDTD_MPI)
    (others : List openEMS_FDTD_MPI)
    (hN : ∀ o ∈ root :: others, o.NrTS = N ∧ o.numTS = 0) (w : World)
    (hw : worldStart first root others = some w) :
    ∀ s ∈ w.ranks, budgetKept N s := by
  have hB : ∀ o ∈ root :: others, (o.NrTS : Int) - o.numTS = N := by
    intro o ho
    rw [(hN o ho).1, (hN o ho).2]
    simp
  by_cases hfit : (N : Int) ≤ INT_MAX
  · have hmin : INT_MIN ≤ (N : Int) := le_trans (by decide) (Int.natCast_nonneg N)
    have hr := hB root (List.mem_cons_self _ _)
    unfold worldStart at hw
    simp only [RunFDTD_start_eq] at hw
    rw [GetNextStep_eq root _ N hr hmin hfit,
      Prog.run_congr _ others _
        (fun o => Prog.reduceInt .MPI_MIN
          (if first o.m_MyID < 0 ∨ first o.m_MyID > (N : Int) then (N : Int)
            else first o.m_MyID)
          (if first o.m_MyID < 0 ∨ first o.m_MyID > (N : Int) then (N : Int)
            else first o.m_MyID)
          (fun v => .bcastInt v (fun v => .ret
            { self := o, step := unsignedToInt (intToUnsigned v), currE := 0, currTS := 0,
              prevTS := 0, cout := [] })))
        (fun o ho => by
          rw [GetNextStep_eq o _ N (hB o (List.mem_cons_of_mem _ ho)) hmin hfit]
          rfl)] at hw
    simp only [Prog.bind] at hw
    rw [Prog.run_reduceInt_map, Prog.run_bcastInt_map, Prog.run_ret_map] at hw
    simp only [Option.map_some', Option.some.injEq] at hw
    subst hw
    have hclip : ∀ p : Int, 0 ≤ (if p < 0 ∨ p > (N : Int) then (N : Int) else p) ∧
        (if p < 0 ∨ p > (N : Int) then (N : Int) else p) ≤ N := by
      intro p
      split_ifs with hc
      · exact ⟨Int.natCast_nonneg N, le_refl _⟩
      · push_neg at hc
        exact hc
    generalize hv : List.foldl MPI_Op.MPI_MIN.applyInt
      (if first root.m_MyID < 0 ∨ first root.m_MyID > (N : Int) then (N : Int)
        else first root.m_MyID)
      (List.map (fun o : openEMS_FDTD_MPI =>
        if first o.m_MyID < 0 ∨ first o.m_MyID > (N : Int) then (N : Int)
          else first o.m_MyID) others) = v
    have hv0 : 0 ≤ v := by
      rw [← hv]
      apply foldl_min_nonneg _ _ (hclip _).1
      intro p hp
      obtain ⟨o, _, rfl⟩ := List.mem_map.1 hp
      exact (hclip _).1
    have hvN : v ≤ N := by
      rw [← hv]
      exact le_trans (foldl_min_le _ _).1 (hclip _).2
    have hconv := unsignedToInt_intToUnsigned hv0 (le_trans hvN hfit)
    intro s hs
    simp only [World.ranks, List.mem_cons, List.mem_map] at hs
    rcases hs with rfl | ⟨o, ho, rfl⟩
    · refine ⟨(hN _ (List.mem_cons_self _ _)).1, ?_, ?_, ?_⟩
      · rw [(hN _ (List.mem_cons_self _ _)).2]; exact Nat.zero_le _
      · show unsignedToInt (intToUnsigned v) ≤ INT_MAX
        rw [hconv]; exact le_trans hvN hfit
      · show ((root.numTS : Nat) : Int) + unsignedToInt (intToUnsigned v) ≤ N
        rw [hconv, (hN _ (List.mem_cons_self _ _)).2]
        simpa using hvN
    · refine ⟨(hN _ (List.mem_cons_of_mem _ ho)).1, ?_, ?_, ?_⟩
      · rw [(hN _ (List.mem_cons_of_mem _ ho)).2]; exact Nat.zero_le _
      · show unsignedToInt (intToUnsigned v) ≤ INT_MAX
        rw [hconv]; exact le_trans hvN hfit
      · show ((o.numTS : Nat) : Int) + unsignedToInt (intToUnsigned v) ≤ N
        rw [hconv, (hN _ (List.mem_cons_of_mem _ ho)).2]
        simpa using hvN
  · have hub : RunFDTD_start root (first root.m_MyID) = .ub := by
      rw [RunFDTD_start_eq, GetNextStep_ub]
      · rfl
      · rw [hB root (List.mem_cons_self _ _)]
        exact fun h => hfit h.2
    unfold worldStart at hw
    rw [hub] at hw
    exact absurd hw (by simp [Prog.run])

/-- C10. Budget bound: for every budget `N`, every number of ranks that start at
timestep 0 and every sequence of local proposals (negative and over-large ones
included), after every completed cycle of the loop the timestep count of every
rank is at most `N`; the loop completes at most `N` cycles however long it is
observed; and on ranks whose count equals their budget `GetNextStep` returns 0
whatever is proposed. -/
theorem timestep_count_within_budget (N : Nat) (first : Nat → Int)
    (env : Nat → Nat → CycleIn) (n : Nat) (root : openEMS_FDTD_MPI)
    (others : List openEMS_FDTD_MPI)
    (hN : ∀ o ∈ root :: others, o.NrTS = N ∧ o.numTS = 0) :
    (∀ w ∈ RunFDTD first env n root others, ∀ s ∈ w.ranks, s.self.numTS ≤ N) ∧
    (RunFDTD first env n root others).length ≤ N ∧
    (∀ (r : openEMS_FDTD_MPI × Int) (rs : List (openEMS_FDTD_MPI × Int)),
      (∀ x ∈ r :: rs, x.1.numTS = x.1.NrTS) →
      Prog.run (GetNextStep r.1 r.2) (rs.map fun x => GetNextStep x.1 x.2)
        = some (0, List.replicate rs.length 0)) := by
  refine ⟨?_, ?_, ?_⟩
  · intro w hw s hs
    unfold RunFDTD at hw
    cases hstart : worldStart first root others with
    | none => simp [hstart] at hw
    | some w0 =>
      simp only [hstart] at hw
      exact ((simulate_keeps_budget N env n 0 w0
        (worldStart_keeps_budget N first root others hN w0 hstart)).1 w hw s hs).2.1
  · unfold RunFDTD
    cases hstart : worldStart first root others with
    | none => simp
    | some w0 =>
      simp only []
      have := (simulate_keeps_budget N env n 0 w0
        (worldStart_keeps_budget N first root others hN w0 hstart)).2
      omega
  · intro r rs hfull
    have hB : ∀ x ∈ r :: rs, (x.1.NrTS : Int) - x.1.numTS = 0 := by
      intro x hx
      rw [hfull x hx]
      simp
    have hfit : ∀ x ∈ r :: rs, INT_MIN ≤ (x.1.NrTS : Int) - x.1.numTS ∧
        (x.1.NrTS : Int) - x.1.numTS ≤ INT_MAX := by
      intro x hx
      rw [hB x hx]
      exact ⟨by decide, by decide⟩
    have hclip : ∀ x ∈ r :: rs,
        (if x.2 < 0 ∨ x.2 > (x.1.NrTS : Int) - x.1.numTS
          then (x.1.NrTS : Int) - x.1.numTS else x.2) = 0 := by
      intro x hx
      rw [hB x hx]
      split_ifs with hc
      · rfl
      · omega
    rw [run_GetNextStep r.1 r.2 rs Prod.fst Prod.snd (hfit r (List.mem_cons_self _ _))
      (fun c hc => hfit c (List.mem_cons_of_mem _ hc))]
    have hmap : (rs.map fun c : openEMS_FDTD_MPI × Int =>
        if c.2 < 0 ∨ c.2 > (c.1.NrTS : Int) - c.1.numTS
          then (c.1.NrTS : Int) - c.1.numTS else c.2) = rs.map fun _ => (0 : Int) :=
      List.map_congr_left (fun c hc => hclip c (List.mem_cons_of_mem _ hc))
    have hfold : ∀ l : List (openEMS_FDTD_MPI × Int),
        (l.map fun _ => (0 : Int)).foldl min 0 = 0 := by
      intro l
      induction l with
      | nil => rfl
      | cons a l ih => simpa using ih
    rw [hmap, hclip r (List.mem_cons_self _ _), hfold]
    simp [intToUnsigned, List.map_const']

/-- Two ranks with a budget of 100 timesteps: the run stays within the budget. -/
theorem timestep_count_within_budget_witness :
    (∀ o ∈ [rank0, rank1], o.NrTS = 100 ∧ o.numTS = 0) ∧
    (∀ w ∈ RunFDTD (fun _ => 10) quietEnv 20 rank0 [rank1],
      ∀ s ∈ w.ranks, s.self.numTS ≤ 100) ∧
    (RunFDTD (fun _ => 10) quietEnv 20 rank0 [rank1]).length ≤ 100 :=
  have h : ∀ o ∈ [rank0, rank1], o.NrTS = 100 ∧ o.numTS = 0 := by
    intro o ho
    simp only [List.mem_cons, List.mem_singleton, List.not_mem_nil, or_false] at ho
    rcases ho with rfl | rfl
    · exact ⟨rfl, rfl⟩
    · exact ⟨rfl, rfl⟩
  ⟨h, (timestep_count_within_budget 100 (fun _ => 10) quietEnv 20 rank0 [rank1] h).1,
    (timestep_count_within_budget 100 (fun _ => 10) quietEnv 20 rank0 [rank1] h).2.1⟩

/-- The run of the two ranks of `quietEnv`: the counts and steps after each cycle; the
negotiated step is 7 until the budget clips it, and the loop ends when the
budget of 100 timesteps is used up. -/
theorem quiet_run_counts :
    (RunFDTD (fun _ => 10) quietEnv 20 rank0 [rank1]).map
        (fun w => w.ranks.map fun s => (s.self.numTS, s.step))
      = [[(10, 7), (10, 7)],
         [(17, 7), (17, 7)],
         [(24, 7), (24, 7)],
         [(31, 7), (31, 7)],
         [(38, 7), (38, 7)],
         [(45, 7), (45, 7)],
         [(52, 7), (52, 7)],
         [(59, 7), (59, 7)],
         [(66, 7), (66, 7)],
         [(73, 7), (73, 7)],
         [(80, 7), (80, 7)],
         [(87, 7), (87, 7)],
         [(94, 6), (94, 6)],
         [(100, 0), (100, 0)]] := by
  decide

/-! ## Cycles without a sample request -/

/-- The programs of `CheckEnergyCalc` on every rank of a world. -/
theorem run_CheckEnergyCalc {γ : Type} (f0 : Bool) (j0 : Int) (cs : List γ)
    (F : γ → Bool) (J : γ → Int) :
    Prog.run (CheckEnergyCalc f0 j0) (cs.map fun c => CheckEnergyCalc (F c) (J c))
      = some (f0 || cs.any F, cs.map fun _ => (f0 || cs.any F)) := by
  rw [CheckEnergyCalc_eq,
    Prog.run_congr _ cs _
      (fun c => Prog.reduceInt .MPI_SUM (if F c then 1 else 0) (J c)
        (fun v => .bcastInt v (fun v => .ret (decide (v > 0)))))
      (fun c _ => CheckEnergyCalc_eq (F c) (J c)),
    Prog.run_reduceInt_map, Prog.run_bcastInt_map, Prog.run_ret_map]
  have h := flags_decide f0 (cs.map F)
  rw [List.map_map, any_map_id] at h
  have h' : decide (List.foldl MPI_Op.MPI_SUM.applyInt (if f0 = true then 1 else 0)
      (List.map (fun c => if F c = true then (1 : Int) else 0) cs) > 0)
      = (f0 || cs.any F) := h
  rw [h']

theorem requested_false (env : Nat → CycleIn) (w : World)
    (hno : ∀ s ∈ w.ranks, (env s.self.m_MyID).CheckTimestep = false) :
    requested env w = false := by
  unfold requested
  rw [List.any_eq_false]
  intro s hs
  rw [hno s hs]
  simp

/-- The collectives of a cycle in which no rank asks for a sample and no
report is due: the two of `GetNextStep` and the two of `CheckEnergyCalc`, or
fewer when the cycle is not completed. -/
theorem calls_quiet_cycle (env : Nat → CycleIn) (root : RunState) (cs : List RunState)
    (hno : ∀ s ∈ root :: cs, (env s.self.m_MyID).CheckTimestep = false)
    (hquiet : ∀ s ∈ root :: cs, (env s.self.m_MyID).t_diff ≤ 4) :
    ∀ c ∈ Prog.calls (loopBody root (env root.self.m_MyID))
        (cs.map fun s => loopBody s (env s.self.m_MyID)),
      c = .reduceInt .MPI_MIN ∨ c = .bcastInt ∨ c = .reduceInt .MPI_SUM := by
  by_cases hfit : ∀ s ∈ root :: cs, INT_MIN ≤ budgetAfter s ∧ budgetAfter s ≤ INT_MAX
  · have hr := hfit root (List.mem_cons_self _ _)
    rw [loopBody_eq root _ hr.1 hr.2,
      Prog.run_congr_calls _ cs _ _
        (fun s hs => loopBody_eq s (env s.self.m_MyID)
          (hfit s (List.mem_cons_of_mem _ hs)).1 (hfit s (List.mem_cons_of_mem _ hs)).2),
      Prog.calls_reduceInt_map, Prog.calls_bcastInt_map, Prog.calls_reduceInt_map,
      Prog.calls_bcastInt_map]
    have hb : decide (List.foldl MPI_Op.MPI_SUM.applyInt
        (if (env root.self.m_MyID).CheckTimestep = true then 1 else 0)
        (List.map (fun c : RunState => if (env c.self.m_MyID).CheckTimestep = true
          then (1 : Int) else 0) cs) > 0) = false := by
      have := flags_decide (env root.self.m_MyID).CheckTimestep
        (cs.map fun c => (env c.self.m_MyID).CheckTimestep)
      rw [List.map_map, any_map_id] at this
      have hreq := requested_false env ⟨root, cs⟩ hno
      simp only [requested, World.ranks, List.any_cons] at hreq
      exact this.trans hreq
    rw [hb]
    have hq : ¬ (env root.self.m_MyID).t_diff > 4 :=
      not_lt.2 (hquiet root (List.mem_cons_self _ _))
    simp only [Bool.false_eq_true, if_false, hq, Prog.calls]
    intro c hc
    simp only [List.mem_cons, List.mem_singleton, List.not_mem_nil, or_false] at hc
    rcases hc with rfl | rfl | rfl | rfl
    · exact Or.inl rfl
    · exact Or.inr (Or.inl rfl)
    · exact Or.inr (Or.inr rfl)
    · exact Or.inr (Or.inl rfl)
  · push_neg at hfit
    obtain ⟨s, hs, hbad⟩ := hfit
    have hbad' : ¬ (INT_MIN ≤ budgetAfter s ∧ budgetAfter s ≤ INT_MAX) :=
      fun hh => absurd hh.2 (not_le.2 (hbad hh.1))
    have hnil : Prog.calls (loopBody root (env root.self.m_MyID))
        (cs.map fun s => loopBody s (env s.self.m_MyID)) = [] := by
      simp only [List.mem_cons] at hs
      rcases hs with rfl | hs
      · rw [loopBody_ub _ _ hbad']
        rfl
      · by_cases hroot : INT_MIN ≤ budgetAfter root ∧ budgetAfter root ≤ INT_MAX
        · rw [loopBody_eq root _ hroot.1 hroot.2]
          apply Prog.calls_reduceInt_mismatch _ _ _ _ cs _ s hs
          rw [loopBody_ub _ _ hbad']
          exact fun hh => nomatch hh
        · rw [loopBody_ub _ _ hroot]
          rfl
    rw [hnil]
    intro c hc
    exact absurd hc (List.not_mem_nil c)

/-- C5, as amended. In a cycle in which no rank's field processor asks for an
energy sample and the report interval has elapsed on no rank (`t_diff <= 4`),
`CheckEnergyCalc` returns false on every rank, no collective of `CalcEnergy`
is issued, the stored maximum and decrement of every rank after the cycle are
those before it, and the cycle is completed whenever every rank passes the
loop condition with a budget that fits an `int`. -/
theorem quiet_cycle_keeps_energy_state (env : Nat → CycleIn) (w : World)
    (hno : ∀ s ∈ w.ranks, (env s.self.m_MyID).CheckTimestep = false)
    (hquiet : ∀ s ∈ w.ranks, (env s.self.m_MyID).t_diff ≤ 4) :
    Prog.run
        (CheckEnergyCalc (env w.root.self.m_MyID).CheckTimestep (env w.root.self.m_MyID).result)
        (w.others.map fun s =>
          CheckEnergyCalc (env s.self.m_MyID).CheckTimestep (env s.self.m_MyID).result)
      = some (false, List.replicate w.others.length false) ∧
    (∀ c ∈ Prog.calls (loopBody w.root (env w.root.self.m_MyID))
        (w.others.map fun s => loopBody s (env s.self.m_MyID)),
      c ≠ .reduceDouble .MPI_SUM ∧ c ≠ .bcastDouble) ∧
    (∀ w', worldCycle env w = some w' →
      w'.ranks.map (fun s => (s.self.m_MaxEnergy, s.self.m_EnergyDecrement))
        = w.ranks.map (fun s => (s.self.m_MaxEnergy, s.self.m_EnergyDecrement))) ∧
    ((∀ s ∈ w.ranks, loopCond s (env s.self.m_MyID) = true ∧
        INT_MIN ≤ budgetAfter s ∧ budgetAfter s ≤ INT_MAX) →
      ∃ w', worldCycle env w = some w') := by
  obtain ⟨root, cs⟩ := w
  have hreq := requested_false env ⟨root, cs⟩ hno
  refine ⟨?_, ?_, ?_, ?_⟩
  · rw [run_CheckEnergyCalc]
    simp only [requested, World.ranks, List.any_cons] at hreq
    rw [hreq]
    simp [List.map_const']
  · intro c hc
    rcases calls_quiet_cycle env root cs hno hquiet c hc with rfl | rfl | rfl
    · exact ⟨by decide, by decide⟩
    · exact ⟨by decide, by decide⟩
    · exact ⟨by decide, by decide⟩
  · intro w' hw'
    obtain ⟨-, rfl⟩ := (worldCycle_eq env _ w').1 hw'
    have key : ∀ s ∈ root :: cs, ∀ rs : Int,
        ((cycleOutcome (env s.self.m_MyID) (negotiated env ⟨root, cs⟩)
            (requested env ⟨root, cs⟩) (globalEnergy env ⟨root, cs⟩) rs s).self.m_MaxEnergy,
          (cycleOutcome (env s.self.m_MyID) (negotiated env ⟨root, cs⟩)
            (requested env ⟨root, cs⟩) (globalEnergy env ⟨root, cs⟩) rs
            s).self.m_EnergyDecrement)
          = (s.self.m_MaxEnergy, s.self.m_EnergyDecrement) := by
      intro s hs rs
      have hq : ¬ (env s.self.m_MyID).t_diff > 4 := not_lt.2 (hquiet s hs)
      simp only [cycleOutcome, hq, if_false, hreq, sampled_self, Bool.false_eq_true]
      rfl
    simp only [cycleWorld, World.ranks, List.map_cons, List.map_map, Function.comp_def]
    rw [key root (List.mem_cons_self _ _)]
    congr 1
    apply List.map_congr_left
    intro s hs
    exact key s (List.mem_cons_of_mem _ hs) _
  · intro h
    refine ⟨_, worldCycle_defined env _ ⟨fun s hs => (h s hs).1, fun s hs => (h s hs).2, ?_⟩⟩
    intro s hs
    have h1 : ¬ (env s.self.m_MyID).t_diff > 4 :=
      not_lt.2 (hquiet s (List.mem_cons_of_mem _ hs))
    have h2 : ¬ (env root.self.m_MyID).t_diff > 4 :=
      not_lt.2 (hquiet root (List.mem_cons_self _ _))
    exact ⟨fun h' => absurd h' h1, fun h' => absurd h' h2⟩

/-- The two ranks of `world7` in a cycle of `quietEnv`: no request, no report
due; the cycle is completed and the energy state is kept. -/
theorem quiet_cycle_keeps_energy_state_witness :
    (∀ s ∈ world7.ranks, (quietEnv 0 s.self.m_MyID).CheckTimestep = false) ∧
    (∀ s ∈ world7.ranks, (quietEnv 0 s.self.m_MyID).t_diff ≤ 4) ∧
    ∃ w', worldCycle (quietEnv 0) world7 = some w' ∧
      w'.ranks.map (fun s => (s.self.m_MaxEnergy, s.self.m_EnergyDecrement))
        = world7.ranks.map (fun s => (s.self.m_MaxEnergy, s.self.m_EnergyDecrement)) :=
  have h1 : ∀ s ∈ world7.ranks, (quietEnv 0 s.self.m_MyID).CheckTimestep = false :=
    fun _ _ => rfl
  have h2 : ∀ s ∈ world7.ranks, (quietEnv 0 s.self.m_MyID).t_diff ≤ 4 :=
    fun _ _ => by simp [quietEnv]
  have h3 : ∀ s ∈ world7.ranks, loopCond s (quietEnv 0 s.self.m_MyID) = true ∧
      INT_MIN ≤ budgetAfter s ∧ budgetAfter s ≤ INT_MAX := by decide
  ⟨h1, h2,
    ((quiet_cycle_keeps_energy_state (quietEnv 0) world7 h1 h2).2.2.2 h3).imp
      fun w' hw' =>
        ⟨hw', (quiet_cycle_keeps_energy_state (quietEnv 0) world7 h1 h2).2.2.1 w' hw'⟩⟩

/-- C5 as stated fails: in the cycle `reportEnv` no rank asks for an energy
sample, yet the report interval has elapsed, `CalcEnergy` is invoked (its
reduction is among the collectives of the cycle) and the stored maximum goes
from 0 to 5 on both ranks. -/
theorem no_request_cycle_changes_energy_state :
    (∀ s ∈ world7.ranks, (reportEnv s.self.m_MyID).CheckTimestep = false) ∧
    Call.reduceDouble .MPI_SUM ∈
      Prog.calls (loopBody world7.root (reportEnv world7.root.self.m_MyID))
        (world7.others.map fun s => loopBody s (reportEnv s.self.m_MyID)) ∧
    world7.ranks.map (fun s => (s.self.m_MaxEnergy, s.self.m_EnergyDecrement))
      = [(0, 1), (0, 1)] ∧
    (worldCycle reportEnv world7).map
        (fun w => w.ranks.map fun s => (s.self.m_MaxEnergy, s.self.m_EnergyDecrement))
      = some [(5, 1), (5, 1)] := by
  with_unfolding_all decide

/-! ## The reporting branch -/

/-- C6, as amended. On a world whose ranks hold the same `currE`, with rank 0 as
the leader, the reporting branch completes and leaves the base members of
every rank (the timestep count, the budget, the end criterion) as they were;
it leaves the whole object of every rank as it was when the cycle has sampled
a non-zero energy (`currE != 0`) and otherwise stores one `CalcEnergy` sample
of the summed local energies; and afterwards `step` is on every rank 0 when
the leader's decrement is below its end criterion and the leader's step from
before the branch (the negotiated step) otherwise. -/
theorem reportBranch_effect (env : Nat → CycleIn) (root : RunState) (others : List RunState)
    (hid : root.self.m_MyID = 0)
    (hE : ∀ s ∈ others, s.currE = root.currE) :
    ∃ r rs,
      Prog.run (reportBranch root (env root.self.m_MyID))
          (others.map fun s => reportBranch s (env s.self.m_MyID)) = some (r, rs) ∧
      (r :: rs).map (fun s => s.self.toopenEMS)
        = (root :: others).map (fun s => s.self.toopenEMS) ∧
      (root.currE ≠ 0 →
        (r :: rs).map (fun s => s.self) = (root :: others).map (fun s => s.self)) ∧
      (root.currE = 0 →
        (r :: rs).map (fun s => s.self)
          = (root :: others).map (fun s => CalcEnergy_store s.self
              ((root :: others).map fun s => (env s.self.m_MyID).CalcTotalEnergy).sum)) ∧
      (∀ s ∈ r :: rs,
        s.step = if r.self.m_EnergyDecrement < r.self.endCrit then 0 else root.step) := by
  have hsum : (env root.self.m_MyID).CalcTotalEnergy
      + (others.map fun c => (env c.self.m_MyID).CalcTotalEnergy).sum
      = ((root :: others).map fun s => (env s.self.m_MyID).CalcTotalEnergy).sum := by
    simp only [List.map_cons, List.sum_cons]
  have hrun := run_reportBranch root (env root.self.m_MyID) others id
    (fun c => env c.self.m_MyID) hE
  simp only [id, hsum] at hrun
  generalize ((root :: others).map fun s => (env s.self.m_MyID).CalcTotalEnergy).sum = E
    at hrun
  refine ⟨_, _, hrun, ?_, ?_, ?_, ?_⟩
  · simp only [List.map_cons, List.map_map, Function.comp_def, reportEntry_base]
  · intro h0
    simp only [List.map_cons, List.map_map, Function.comp_def, reportEntry_self, h0, if_false]
    congr 1
    apply List.map_congr_left
    intro s hs
    rw [if_neg (fun h => h0 ((hE s hs).symm.trans h))]
  · intro h0
    simp only [List.map_cons, List.map_map, Function.comp_def, reportEntry_self, h0, if_true]
    congr 1
    apply List.map_congr_left
    intro s hs
    rw [if_pos ((hE s hs).trans h0)]
  · have hroot : (reportEntry E root).step
        = if (reportEntry E root).self.m_EnergyDecrement < (reportEntry E root).self.endCrit
          then 0 else root.step := by
      rw [reportEntry_step]
      simp only [hid, true_and]
    intro s hs
    simp only [List.mem_cons, List.mem_map] at hs
    rcases hs with rfl | ⟨c, _, rfl⟩
    · exact hroot
    · exact hroot

/-- The two ranks of `atReport` in the reporting branch of `faintEnv`: the branch
completes and the base members are kept. -/
theorem reportBranch_effect_witness :
    (atReport rank0).self.m_MyID = 0 ∧
    (∀ s ∈ [atReport rank1], s.currE = (atReport rank0).currE) ∧
    ∃ r rs,
      Prog.run (reportBranch (atReport rank0) (faintEnv (atReport rank0).self.m_MyID))
          ([atReport rank1].map fun s => reportBranch s (faintEnv s.self.m_MyID))
        = some (r, rs) ∧
      (r :: rs).map (fun s => s.self.toopenEMS)
        = (atReport rank0 :: [atReport rank1]).map (fun s => s.self.toopenEMS) :=
  have h1 : (atReport rank0).self.m_MyID = 0 := rfl
  have h2 : ∀ s ∈ [atReport rank1], s.currE = (atReport rank0).currE := by
    intro s hs
    rw [List.mem_singleton.1 hs]
    rfl
  ⟨h1, h2,
    (reportBranch_effect faintEnv (atReport rank0) [atReport rank1] h1 h2).imp
      fun _ h => h.imp fun _ h => ⟨h.1, h.2.1⟩⟩

/-- C6 as stated fails: before the reporting branch both ranks hold the step 7,
the maximum 4 and the decrement 1; the branch samples the energy 1/1000,
which brings the decrement to 1/4000, below the end criterion 1/1000, and
sets the step to 0 on both ranks. -/
theorem reportBranch_changes_step_and_decrement :
    [atReport rank0, atReport rank1].map
        (fun s => (s.step, s.self.m_MaxEnergy, s.self.m_EnergyDecrement))
      = [(7, 4, 1), (7, 4, 1)] ∧
    (Prog.run (reportBranch (atReport rank0) (faintEnv 0))
        [reportBranch (atReport rank1) (faintEnv 1)]).map
        (fun r => (r.1 :: r.2).map
          fun s => (s.step, s.self.m_MaxEnergy, s.self.m_EnergyDecrement))
      = some [(0, 4, 1 / 4000), (0, 4, 1 / 4000)] := by
  constructor
  · rfl
  · norm_num [reportBranch_eq, atReport, faintEnv, Prog.run, Prog.head?, Prog.afterReduce,
      Prog.afterBcastDouble, Prog.afterBcastInt, Prog.sendDouble, Prog.ret?,
      MPI_Op.applyDouble, reportLeader, withSample, CalcEnergy_store_eq, rank0, rank1,
      openEMS_FDTD_MPI.new, base100, List.filterMap_cons]

/-! ## Convergence -/

/-- C4, as amended. In every completed cycle of the loop, with rank 0 as the
leader and `n` the step `GetNextStep` returns in the cycle, `step` ends on
every rank as 0 when the leader's report interval has elapsed (`t_diff > 4`)
and the leader's decrement after the cycle is strictly below its end
criterion, and as `n` otherwise, also when the decrement has reached the
criterion; and a cycle that ends with that forced 0 is the last one: no
further cycle is completed. -/
theorem convergence_forces_step_zero (env : Nat → CycleIn) (w w' : World)
    (hcyc : worldCycle env w = some w') (hid : w.root.self.m_MyID = 0) :
    ∃ n : Nat,
      Prog.run
          (GetNextStep (IterateTS w.root.self (intToUnsigned w.root.step))
            (env w.root.self.m_MyID).Process)
          (w.others.map fun s =>
            GetNextStep (IterateTS s.self (intToUnsigned s.step)) (env s.self.m_MyID).Process)
        = some (n, List.replicate w.others.length n) ∧
      (∀ s ∈ w'.ranks,
        s.step =
          if (env w.root.self.m_MyID).t_diff > 4 ∧
              w'.root.self.m_EnergyDecrement < w'.root.self.endCrit
          then 0 else unsignedToInt n) ∧
      ((env w.root.self.m_MyID).t_diff > 4 ∧
          w'.root.self.m_EnergyDecrement < w'.root.self.endCrit →
        ∀ env', worldCycle env' w' = none) := by
  obtain ⟨⟨hcond, hfit, hagree⟩, rfl⟩ := (worldCycle_eq env w w').1 hcyc
  obtain ⟨root, cs⟩ := w
  have hid' : root.self.m_MyID = 0 := hid
  have hsteps : ∀ s ∈ (cycleWorld env ⟨root, cs⟩).ranks,
      s.step =
        if (env root.self.m_MyID).t_diff > 4 ∧
            (cycleWorld env ⟨root, cs⟩).root.self.m_EnergyDecrement
              < (cycleWorld env ⟨root, cs⟩).root.self.endCrit
        then 0 else unsignedToInt (intToUnsigned (negotiated env ⟨root, cs⟩)) := by
    have key : ∀ s ∈ root :: cs,
        (cycleOutcome (env s.self.m_MyID) (negotiated env ⟨root, cs⟩)
          (requested env ⟨root, cs⟩) (globalEnergy env ⟨root, cs⟩)
          (reportEntry (globalEnergy env ⟨root, cs⟩)
            (sampled (negotiated env ⟨root, cs⟩) (requested env ⟨root, cs⟩)
              (globalEnergy env ⟨root, cs⟩) root)).step s).step =
        if (env root.self.m_MyID).t_diff > 4 ∧
            (cycleWorld env ⟨root, cs⟩).root.self.m_EnergyDecrement
              < (cycleWorld env ⟨root, cs⟩).root.self.endCrit
        then 0 else unsignedToInt (intToUnsigned (negotiated env ⟨root, cs⟩)) := by
      intro s hs
      have hag : (env s.self.m_MyID).t_diff > 4 ↔ (env root.self.m_MyID).t_diff > 4 := by
        simp only [List.mem_cons] at hs
        rcases hs with rfl | hs
        · exact Iff.rfl
        · exact hagree s hs
      rw [cycleOutcome_step]
      by_cases h4 : (env root.self.m_MyID).t_diff > 4
      · have hself : (cycleWorld env ⟨root, cs⟩).root.self
            = (reportEntry (globalEnergy env ⟨root, cs⟩)
                (sampled (negotiated env ⟨root, cs⟩) (requested env ⟨root, cs⟩)
                  (globalEnergy env ⟨root, cs⟩) root)).self := by
          simp only [cycleWorld, cycleOutcome, h4, if_true]
        rw [if_pos (hag.2 h4), hself, reportEntry_step, sampled_id, sampled_step]
        split_ifs with h1 h2 h2
        · rfl
        · exact absurd ⟨h4, h1.2⟩ h2
        · exact absurd ⟨hid', h2.2⟩ h1
        · rfl
      · rw [if_neg (fun h => h4 (hag.1 h)), if_neg (fun h => h4 h.1)]
    intro s hs
    simp only [cycleWorld, World.ranks, List.mem_cons, List.mem_map] at hs
    rcases hs with rfl | ⟨c, hc, rfl⟩
    · exact key root (List.mem_cons_self _ _)
    · exact key c (List.mem_cons_of_mem _ hc)
  refine ⟨intToUnsigned (negotiated env ⟨root, cs⟩), ?_, hsteps, ?_⟩
  · rw [run_GetNextStep (IterateTS root.self (intToUnsigned root.step))
      (env root.self.m_MyID).Process cs (fun s => IterateTS s.self (intToUnsigned s.step))
      (fun s => (env s.self.m_MyID).Process) (hfit root (List.mem_cons_self _ _))
      (fun c hc => hfit c (List.mem_cons_of_mem _ hc))]
    simp only [List.map_const']
    rfl
  · intro hsig env'
    apply worldCycle_undefined
    intro hd
    have h0 := hsteps _ (List.mem_cons_self _ _)
    rw [if_pos hsig] at h0
    have hpos := loopCond_pos _ _ (hd.1 _ (List.mem_cons_self _ _))
    rw [h0] at hpos
    exact absurd hpos (lt_irrefl _)

/-- The two ranks of `world7` complete the cycle `reportEnv`, in which the
report is due and the decrement is 1: the step stays the negotiated one. -/
theorem convergence_forces_step_zero_witness :
    worldCycle reportEnv world7 = some (cycleWorld reportEnv world7) ∧
    world7.root.self.m_MyID = 0 ∧
    ∃ n : Nat,
      Prog.run
          (GetNextStep (IterateTS world7.root.self (intToUnsigned world7.root.step))
            (reportEnv world7.root.self.m_MyID).Process)
          (world7.others.map fun s =>
            GetNextStep (IterateTS s.self (intToUnsigned s.step))
              (reportEnv s.self.m_MyID).Process)
        = some (n, List.replicate world7.others.length n) ∧
      ∀ s ∈ (cycleWorld reportEnv world7).ranks,
        s.step =
          if (reportEnv world7.root.self.m_MyID).t_diff > 4 ∧
              (cycleWorld reportEnv world7).root.self.m_EnergyDecrement
                < (cycleWorld reportEnv world7).root.self.endCrit
          then 0 else unsignedToInt n :=
  have h : worldCycle reportEnv world7 = some (cycleWorld reportEnv world7) :=
    worldCycle_defined reportEnv world7 (by unfold cycleDefined; decide)
  ⟨h, rfl,
    (convergence_forces_step_zero reportEnv world7 (cycleWorld reportEnv world7) h rfl).imp
      fun _ hn => ⟨hn.1, hn.2.1⟩⟩

/-- C4 as stated fails.  With the end criterion 1/1000 (30 dB) and global
energies 1, 1/10, 1/100, 1/1000, 1/10000 sampled and reported in every cycle,
the decrement equals the criterion after the fourth cycle, yet `step` is
forced to 0 in the fifth only: the test is strict.  With the same samples and
a report interval that never elapses `step` is never forced to 0.  Each entry
tells whether the decrement is at most the criterion, whether it is at least
the criterion, and the step after the cycle. -/
theorem convergence_not_at_first_crossing :
    (RunFDTD (fun _ => 1) decayEnv 10 rank0 [rank1]).map
        (fun w => (decide (w.root.self.m_EnergyDecrement ≤ w.root.self.endCrit),
          decide (w.root.self.endCrit ≤ w.root.self.m_EnergyDecrement), w.root.step))
      = [(false, true, 1), (false, true, 1), (false, true, 1), (true, true, 1),
         (true, false, 0)] ∧
    (RunFDTD (fun _ => 1) unreportedEnv 6 rank0 [rank1]).map
        (fun w => (decide (w.root.self.m_EnergyDecrement ≤ w.root.self.endCrit),
          decide (w.root.self.endCrit ≤ w.root.self.m_EnergyDecrement), w.root.step))
      = [(false, true, 1), (false, true, 1), (false, true, 1), (true, true, 1),
         (true, false, 1), (true, false, 1)] := by
  with_unfolding_all decide

/-! ## Local clocks -/

/-- C9 evaluated at a failing input.  Two ranks enter a cycle with the same
step, timestep count, maximum and decrement; 5 seconds have passed since the
last report on rank 0 and 3 seconds on rank 1.  The world does not complete
the cycle, although it does when both clocks read 5 seconds: rank 0 issues the
three collectives of the reporting branch, which rank 1 does not issue, and
rank 0 ends the cycle with step 0 while rank 1 ends it with step 7. -/
theorem local_clock_splits_ranks :
    ((atReport rank0).step, (atReport rank0).self.numTS, (atReport rank0).self.m_MaxEnergy,
        (atReport rank0).self.m_EnergyDecrement)
      = ((atReport rank1).step, (atReport rank1).self.numTS, (atReport rank1).self.m_MaxEnergy,
        (atReport rank1).self.m_EnergyDecrement) ∧
    worldCycle skewEnv { root := atReport rank0, others := [atReport rank1] } = none ∧
    (worldCycle faintEnv { root := atReport rank0, others := [atReport rank1] }).isSome
      = true ∧
    (Prog.solo true skewInts skewDoubles 0 (loopBody (atReport rank0) (skewEnv 0))).1
      = [.reduceInt .MPI_MIN, .bcastInt, .reduceInt .MPI_SUM, .bcastInt,
         .reduceDouble .MPI_SUM, .bcastDouble, .bcastInt] ∧
    (Prog.solo false skewInts skewDoubles 0 (loopBody (atReport rank1) (skewEnv 1))).1
      = [.reduceInt .MPI_MIN, .bcastInt, .reduceInt .MPI_SUM, .bcastInt] ∧
    ((Prog.solo true skewInts skewDoubles 0 (loopBody (atReport rank0) (skewEnv 0))).2.map
        fun s => s.step) = some 0 ∧
    ((Prog.solo false skewInts skewDoubles 0 (loopBody (atReport rank1) (skewEnv 1))).2.map
        fun s => s.step) = some 7 := by
  refine ⟨rfl, ?_, ?_, ?_, ?_, ?_, ?_⟩
  · apply worldCycle_undefined
    unfold cycleDefined
    with_unfolding_all decide
  · rw [worldCycle_defined faintEnv _ (by unfold cycleDefined; with_unfolding_all decide)]
    rfl
  · with_unfolding_all decide
  · with_unfolding_all decide
  · with_unfolding_all decide
  · with_unfolding_all decide


end OpenEMS
